import Mathlib

/-!
# setVersion: the HTML table-row appender of `main.go`

A shallow embedding of the tree-manipulating part of `src/main.go`
(`changeHtml`, `addRow`, `findElement`, `parseTable`) and of the version
computation in `main`, followed by theorems about them.

Modelling decisions.

* `html.Node` is a pointer structure with first-child / next-sibling links.
  Here a node owns the ordered list of its children; a `*html.Node` that points
  into a tree is a path (the list of child indices leading from the root of
  that tree to the node). `Parent`, `PrevSibling`, `LastChild` are derived data
  and are not stored.
* In-place mutation becomes explicit state passing: a function that mutates
  the subtree below a pointer returns the new subtree.
* The recursive closure `f` of `changeHtml` walks a tree that it is growing,
  so its recursion is not structural; it is given a fuel argument that bounds
  the recursion depth, and termination is a theorem (enough fuel always gives
  a result).
* `html.Parse` and `html.Render`, the HTTP calls, `os.Stat`, `os.WriteFile`,
  SHA-1 and the clock are library code; the tree is an input of the traversal
  and the other ones are fields of an environment record.
-/

namespace SetVersion

/-! ## Data model (`golang.org/x/net/html`) -/

/-- The `html.NodeType` enumeration. -/
inductive NodeType where
  | ErrorNode
  | TextNode
  | DocumentNode
  | ElementNode
  | CommentNode
  | DoctypeNode
  | RawNode
deriving DecidableEq, Repr

/-- The `html.Attribute` record. -/
structure Attribute where
  Namespace : String
  Key : String
  Val : String
deriving DecidableEq, Repr

/-- The non-link fields of `html.Node`. The Go field `Type` is called `Kind`
here because `Type` is reserved. -/
structure NodeInfo where
  Kind : NodeType
  DataAtom : Nat
  Data : String
  Namespace : String
  Attr : List Attribute
deriving DecidableEq, Repr

/-- An `html.Node` together with the nodes reachable through
`FirstChild` / `NextSibling`, in sibling order. -/
inductive Node where
  | mk (info : NodeInfo) (children : List Node)
deriving Repr

/-- The fields of a node. -/
def Node.info : Node → NodeInfo
  | .mk h _ => h

/-- The children of a node, first child first. -/
def Node.children : Node → List Node
  | .mk _ cs => cs

/-- The composite literal `&html.Node{Type: t, Data: d}`: every other field
has its zero value and the node has no children. -/
def Node.lit (t : NodeType) (d : String) : Node :=
  .mk ⟨t, 0, d, "", []⟩ []

/-- The method `(*Node).AppendChild`: `c` becomes the last child of `n`. -/
def Node.AppendChild (n c : Node) : Node :=
  .mk n.info (n.children ++ [c])

/-- Replace the `i`-th element of a list by its image under `fn`; a list that
is too short is left as it is. -/
def modifyAt (fn : Node → Node) : Nat → List Node → List Node
  | _, [] => []
  | 0, c :: cs => fn c :: cs
  | i + 1, c :: cs => c :: modifyAt fn i cs

/-- The call `p.AppendChild(c)` for the node `p` that the path points to inside
the tree `n`: the tree after the mutation. -/
def appendChildAt : List Nat → Node → Node → Node
  | [], c, n => n.AppendChild c
  | i :: p, c, .mk h cs => .mk h (modifyAt (appendChildAt p c) i cs)

/-- Dereference a pointer: the node that a path points to, if any. -/
def nodeAt : Node → List Nat → Option Node
  | n, [] => some n
  | .mk _ cs, i :: p =>
    match cs[i]? with
    | some c => nodeAt c p
    | none => none

/-! ## `findElement` (main.go 273-285) -/

mutual
/-- The function `findElement`: the first node, in pre-order, of the subtree
of `n` (the node `n` included) that is an element with the given tag, as a
path from `n`; `none` is the `nil` pointer. -/
def findElement : Node → String → Option (List Nat)
  | .mk h cs, tag =>
    if h.Kind = NodeType.ElementNode ∧ h.Data = tag then some []
    else findElementIn cs tag
/-- The loop `for c := n.FirstChild; c != nil; c = c.NextSibling` of
`findElement`: the first child in which the search succeeds. -/
def findElementIn : List Node → String → Option (List Nat)
  | [], _ => none
  | c :: cs, tag =>
    match findElement c tag with
    | some p => some (0 :: p)
    | none =>
      match findElementIn cs tag with
      | some (i :: p) => some ((i + 1) :: p)
      | _ => none
end

/-! ## `addRow` (main.go 252-268) -/

/-- One iteration of the loop of `addRow`: a new `td` with one text child is
appended to the row under construction. -/
def addCell (newRow : Node) (cellData : String) : Node :=
  let newCell := Node.lit NodeType.ElementNode "td"
  let newCell := newCell.AppendChild (Node.lit NodeType.TextNode cellData)
  newRow.AppendChild newCell

/-- Lines 253-259 of `addRow`: the `tr` node built from the data. -/
def newRow (data : List String) : Node :=
  data.foldl addCell (Node.lit NodeType.ElementNode "tr")

/-- The function `addRow`: the table node after the call. -/
def addRow (tableNode : Node) (data : List String) : Node :=
  match findElement tableNode "tbody" with
  | some tbody => appendChildAt tbody (newRow data) tableNode
  | none => tableNode.AppendChild (newRow data)

/-! ## `parseTable` (main.go 221-247) -/

/-- The innermost loop of `parseTable`: the texts of the `td` / `th` cells of
a row. -/
def rowData : List Node → List String
  | [] => []
  | cell :: rest =>
    if cell.info.Kind = NodeType.ElementNode ∧
        (cell.info.Data = "td" ∨ cell.info.Data = "th") then
      (match cell.children with
        | fc :: _ => if fc.info.Kind = NodeType.TextNode then fc.info.Data else ""
        | [] => "") :: rowData rest
    else rowData rest

/-- The middle loop of `parseTable`: the rows of a `tbody` / `thead`. -/
def sectionRows : List Node → List (List String)
  | [] => []
  | r :: rest =>
    if r.info.Kind = NodeType.ElementNode ∧ r.info.Data = "tr" then
      rowData r.children :: sectionRows rest
    else sectionRows rest

/-- The outer loop of `parseTable`. -/
def tableRows : List Node → List (List String)
  | [] => []
  | c :: rest =>
    if c.info.Kind = NodeType.ElementNode ∧
        (c.info.Data = "tbody" ∨ c.info.Data = "thead") then
      sectionRows c.children ++ tableRows rest
    else tableRows rest

/-- The function `parseTable`: the value of its local variable `rows` when it
returns. The Go function returns nothing and changes nothing. -/
def parseTable (tableNode : Node) : List (List String) :=
  tableRows tableNode.children

/-! ## The traversal `f` of `changeHtml` (main.go 146-161) -/

/-- The loop `for c := n.FirstChild; c != nil; c = c.NextSibling { f(c) }`:
the children after the calls, and the number of `addRow` calls made. -/
def walkChildren (fn : Node → Option (Node × Nat)) :
    List Node → Option (List Node × Nat)
  | [] => some ([], 0)
  | c :: cs =>
    match fn c with
    | none => none
    | some (c1, k) =>
      match walkChildren fn cs with
      | none => none
      | some (cs1, m) => some (c1 :: cs1, k + m)

/-- The closure `f` of `changeHtml`, with the row `data` that it hands to
`addRow`. The result is the subtree after the call together with the number
of `addRow` calls made; `none` means that the fuel did not suffice. The loop
runs over the children that the node has after `addRow`, the appended row
included; a call `f(c)` changes nothing outside the subtree of `c`, so the
sibling list does not change while the loop walks it. -/
def f (data : List String) : Nat → Node → Option (Node × Nat)
  | 0, _ => none
  | fuel + 1, n =>
    let hit : Bool := n.info.Kind = NodeType.ElementNode ∧ n.info.Data = "table"
    let n1 := if hit then addRow n data else n
    let _rows := if hit then parseTable n1 else []
    match walkChildren (f data fuel) n1.children with
    | none => none
    | some (cs, m) => some (.mk n1.info cs, (if hit then 1 else 0) + m)

/-! ## `main` and the version string (main.go 37-120, 344-346) -/

/-- What the program reads from outside. -/
structure Env where
  /-- The slice `os.Args`. -/
  Args : List String
  /-- Whether `os.IsNotExist(err)` holds for the `err` of `os.Stat(name)`. -/
  statIsNotExist : String → Bool
  /-- The value of `strftime.Format("%d.%m.%Y", time.Now().Local())`. -/
  now : String
  /-- The lower-case hexadecimal SHA-1 digest of a string. -/
  sha1Hex : String → String
  /-- The error of `os.WriteFile`, as the text that `%v` prints; `none` is the
  `nil` error. -/
  writeFileErr : Option String

/-- How a run of `main` stands when it reaches
`changeAndSaveHtmlVersionBookstack`, or why it does not get there: the
run-time error of an index expression `os.Args[i]` out of range, the message
of a `log.Fatalf`, or the value of the global `CalculatedVersion` together
with the file written, if any (its name and the version stored in it). -/
inductive Run where
  | indexOutOfRange
  | fatal (msg : String)
  | reached (CalculatedVersion : String) (written : Option (String × String))
deriving DecidableEq, Repr

def VersionFileName : String := "version.json"

/-- The function `getCurrentLocalDateTime`. -/
def getCurrentLocalDateTime (env : Env) : String := env.now

/-- The function `generateSha1FromCurrentDateAndTime`. -/
def generateSha1FromCurrentDateAndTime (env : Env) : String :=
  env.sha1Hex (getCurrentLocalDateTime env)

/-- The function `checkFileExists`. -/
def checkFileExists (env : Env) (filename : String) : Bool :=
  if env.statIsNotExist filename then true else false

/-- The function `createVersionJsonFile`: the new value of the global
`CalculatedVersion` and, when `os.WriteFile` fails, the message of the
`log.Fatalf` that ends the run. `json.MarshalIndent` of a record with one
string field returns no error. -/
def createVersionJsonFile (env : Env) (versionFromInput : String) :
    String × Option String :=
  let CalculatedVersion :=
    "1.1." ++ versionFromInput ++ "." ++ generateSha1FromCurrentDateAndTime env
  match env.writeFileErr with
  | some err => (CalculatedVersion, some ("Ошибка записи в файл JSON: " ++ err))
  | none => (CalculatedVersion, none)

/-- The function `main` up to the call of `changeAndSaveHtmlVersionBookstack`.
The global `CalculatedVersion` starts as the empty string. -/
def main (env : Env) : Run :=
  if env.Args.length = 0 then Run.fatal "Не переданы параметры"
  else
    match env.Args with
    | _ :: version :: _ :: _ :: _ =>
      if checkFileExists env version then
        match createVersionJsonFile env version with
        | (_, some msg) => Run.fatal msg
        | (cv, none) => Run.reached cv (some (VersionFileName, cv))
      else Run.reached "" none
    | _ => Run.indexOutOfRange

/-- The argument `[]string{dateTime, CalculatedVersion}` of the `addRow` call
in `changeHtml`. -/
def changeHtmlRow (env : Env) (CalculatedVersion : String) : List String :=
  [getCurrentLocalDateTime env, CalculatedVersion]

/-- The traversal of `changeHtml` on the parsed document: `f(doc)` with the
row built from the clock and the global `CalculatedVersion`. -/
def changeHtmlWalk (env : Env) (CalculatedVersion : String) (fuel : Nat) (doc : Node) :
    Option (Node × Nat) :=
  f (changeHtmlRow env CalculatedVersion) fuel doc

/-! ## Vocabulary of the specification -/

/-- Element node with the given tag. -/
def isElem (tag : String) (h : NodeInfo) : Prop :=
  h.Kind = NodeType.ElementNode ∧ h.Data = tag

instance (tag : String) (h : NodeInfo) : Decidable (isElem tag h) :=
  inferInstanceAs (Decidable (h.Kind = NodeType.ElementNode ∧ h.Data = tag))

mutual
/-- Number of element nodes with the given tag in a subtree. -/
def countElem (tag : String) : Node → Nat
  | .mk h cs => (if h.Kind = NodeType.ElementNode ∧ h.Data = tag then 1 else 0) + countElemIn tag cs
/-- Number of element nodes with the given tag in a forest. -/
def countElemIn (tag : String) : List Node → Nat
  | [] => 0
  | c :: cs => countElem tag c + countElemIn tag cs
end

mutual
/-- Number of levels of a tree; a leaf has height 1. -/
def height : Node → Nat
  | .mk _ cs => heightIn cs + 1
/-- Largest height in a forest. -/
def heightIn : List Node → Nat
  | [] => 0
  | c :: cs => max (height c) (heightIn cs)
end

/-- An amount of fuel that suffices for the traversal of a tree. -/
def fuelBound (n : Node) : Nat :=
  height n + 3 * countElem "table" n

/-- Number of `tr` element nodes in a list of siblings. -/
def trCount : List Node → Nat
  | [] => 0
  | c :: cs => (if c.info.Kind = NodeType.ElementNode ∧ c.info.Data = "tr" then 1 else 0) + trCount cs

mutual
/-- The tree `r` is the tree `n` with copies of `x` added as last children:
same fields at every old node, old children in their old order and grown in
the same way, and after them only copies of `x`. -/
def Grown (x : Node) : Node → Node → Prop
  | .mk h cs, .mk h1 cs1 => h1 = h ∧ GrownIn x cs cs1
/-- The forest version of `Grown`: the old children, and then copies of `x`. -/
def GrownIn (x : Node) : List Node → List Node → Prop
  | [], rest => ∀ y ∈ rest, y = x
  | _ :: _, [] => False
  | c :: cs, c1 :: cs1 => Grown x c c1 ∧ GrownIn x cs cs1
end

mutual
/-- The tree `r` cut back to the shape of the tree `n`: at every node only as
many children are kept as the node has in `n`. -/
def cutTo : Node → Node → Node
  | .mk _ cs, .mk h1 cs1 => .mk h1 (cutToIn cs cs1)
/-- The forest version of `cutTo`. -/
def cutToIn : List Node → List Node → List Node
  | [], _ => []
  | _ :: _, [] => []
  | c :: cs, c1 :: cs1 => cutTo c c1 :: cutToIn cs cs1
end

mutual
/-- The result of the traversal, computed bottom-up: first the children, then
the `addRow` of the node itself. -/
def bottomUp (data : List String) : Node → Node
  | .mk h cs =>
    if h.Kind = NodeType.ElementNode ∧ h.Data = "table" then
      addRow (.mk h (bottomUpIn data cs)) data
    else .mk h (bottomUpIn data cs)
/-- The forest version of `bottomUp`. -/
def bottomUpIn (data : List String) : List Node → List Node
  | [] => []
  | c :: cs => bottomUp data c :: bottomUpIn data cs
end

/-- Pre-order on pointers into one tree: the node at the first path is
visited before the node at the second one (it is a proper ancestor of it, or
lies in an earlier sibling subtree). -/
def visitedBefore : List Nat → List Nat → Bool
  | [], [] => false
  | [], _ :: _ => true
  | _ :: _, [] => false
  | i :: p, j :: q => i < j || (i == j && visitedBefore p q)

/-- The `td` node that `addRow` builds for one value. -/
def cellOf (s : String) : Node :=
  .mk ⟨NodeType.ElementNode, 0, "td", "", []⟩ [.mk ⟨NodeType.TextNode, 0, s, "", []⟩ []]

/-- The node that `addRow` appends the row to, as a path from the table node:
the `tbody` found by `findElement`, or the table node itself. -/
def insertionTarget (tableNode : Node) : List Nat :=
  match findElement tableNode "tbody" with
  | some tbody => tbody
  | none => []

/-- The bottom-up traversal applied to the children of a node only. -/
def under (data : List String) (n : Node) : Node :=
  .mk n.info (n.children.map (bottomUp data))

/-- Shorthand for building test trees: an element with a tag and children. -/
def el (tag : String) (cs : List Node) : Node :=
  .mk ⟨NodeType.ElementNode, 0, tag, "", []⟩ cs

/-- Shorthand for building test trees: a text node. -/
def tx (s : String) : Node :=
  .mk ⟨NodeType.TextNode, 0, s, "", []⟩ []

/-- Shorthand for building test trees: a document node. -/
def docOf (cs : List Node) : Node :=
  .mk ⟨NodeType.DocumentNode, 0, "", "", []⟩ cs

/-- The row built from the values `d` and `v`. -/
def rowDV : Node := el "tr" [el "td" [tx "d"], el "td" [tx "v"]]

/-- A document with two sibling tables, the second one with a `tbody`. -/
def docTwoTables : Node := docOf [el "table" [], el "table" [el "tbody" []]]

/-- The tree that `html.Parse` builds for
`<table><template><tbody></tbody></template><tbody></tbody></table>`: one
table whose first child, a `template`, holds a `tbody`, and whose second child
is a `tbody`. -/
def docTemplate : Node :=
  docOf [el "html" [el "head" [],
    el "body" [el "table" [el "template" [el "tbody" []], el "tbody" []]]]]

/-- The table node that `html.Parse` builds for
`<table><caption><table><tbody></tbody></table></caption></table>`: no `tbody`
among its children, and a table with a `tbody` nested in its caption. -/
def tblCaption : Node := el "table" [el "caption" [el "table" [el "tbody" []]]]

/-- The table node that `html.Parse` builds for
`<table><caption>t<table><tr><td>d</td><td>v</td></tr></table></caption></table>`:
no `tbody` among its children; the table nested in its caption has a `tbody`
with one row. -/
def tblCaptionRow : Node :=
  el "table" [el "caption" [tx "t", el "table" [el "tbody" [rowDV]]]]

/-- A document with one table that has a `tbody` with one row. -/
def docOneTable : Node := docOf [el "table" [el "tbody" [rowDV]]]

/-- A table without a `tbody` child, with a nested table that has a `tbody`. -/
def tblNested : Node := el "table" [el "tr" [el "td" [el "table" [el "tbody" []]]]]

/-- Sample environment: the file named by the version argument exists, the
file `version.json` does not. -/
def envFileExists : Env :=
  ⟨["setVersion", "7", "3", "139"], fun name => name != "7", "12.05.2024",
    fun _ => "da39a3ee", none⟩

/-! ## Induction over trees -/

mutual
/-- Structural induction over a tree, auxiliary form. -/
theorem Node.ind_aux (P : Node → Prop)
    (step : ∀ h cs, (∀ c ∈ cs, P c) → P (.mk h cs)) : ∀ n, P n
  | .mk h cs => step h cs (Node.ind_list P step cs)
/-- Structural induction over a forest. -/
theorem Node.ind_list (P : Node → Prop)
    (step : ∀ h cs, (∀ c ∈ cs, P c) → P (.mk h cs)) : ∀ cs : List Node, ∀ c ∈ cs, P c
  | [], _, hc => by cases hc
  | d :: ds, c, hc => by
    rcases List.mem_cons.mp hc with rfl | hc
    · exact Node.ind_aux P step c
    · exact Node.ind_list P step ds c hc
end

theorem bottomUpIn_eq_map (data : List String) (cs : List Node) :
    bottomUpIn data cs = cs.map (bottomUp data) := by
  induction cs with
  | nil => simp [bottomUpIn]
  | cons c cs ih => simp [bottomUpIn, ih]

theorem countElemIn_eq_sum (tag : String) (cs : List Node) :
    countElemIn tag cs = (cs.map (countElem tag)).sum := by
  induction cs with
  | nil => simp [countElemIn]
  | cons c cs ih => simp [countElemIn, ih]

theorem countElem_le_countElemIn (tag : String) (cs : List Node) (c : Node) (hc : c ∈ cs) :
    countElem tag c ≤ countElemIn tag cs := by
  induction cs with
  | nil => cases hc
  | cons d ds ih =>
    rcases List.mem_cons.mp hc with rfl | hc
    · simp [countElemIn]
    · have := ih hc
      simp only [countElemIn]; omega

theorem height_le_heightIn (cs : List Node) (c : Node) (hc : c ∈ cs) :
    height c ≤ heightIn cs := by
  induction cs with
  | nil => cases hc
  | cons d ds ih =>
    rcases List.mem_cons.mp hc with rfl | hc
    · simp [heightIn]
    · have := ih hc
      simp only [heightIn]; omega

/-! ## The row built by `addRow` -/

theorem foldl_addCell (data : List String) (acc : Node) :
    data.foldl addCell acc = .mk acc.info (acc.children ++ data.map cellOf) := by
  induction data generalizing acc with
  | nil => cases acc; simp [Node.info, Node.children]
  | cons s rest ih =>
    rw [List.foldl_cons, ih]
    cases acc
    simp [addCell, Node.AppendChild, Node.info, Node.children, Node.lit, cellOf]

theorem newRow_eq (data : List String) :
    newRow data = .mk ⟨NodeType.ElementNode, 0, "tr", "", []⟩ (data.map cellOf) := by
  simp [newRow, foldl_addCell, Node.lit, Node.info, Node.children]

theorem rowData_map_cellOf (data : List String) : rowData (data.map cellOf) = data := by
  induction data with
  | nil => rfl
  | cons s rest ih =>
    simp [rowData, cellOf, Node.info, Node.children, ih]

theorem findElementIn_cells (data : List String) (tag : String) (htag : tag ≠ "td") :
    findElementIn (data.map cellOf) tag = none := by
  induction data with
  | nil => rfl
  | cons s rest ih =>
    have hc : findElement (cellOf s) tag = none := by
      simp [cellOf, findElement, findElementIn, htag, Ne.symm htag]
    simp [findElementIn, hc, ih]

theorem findElement_newRow (data : List String) (tag : String)
    (h1 : tag ≠ "td") (h2 : tag ≠ "tr") : findElement (newRow data) tag = none := by
  rw [newRow_eq]
  simp [findElement, findElementIn_cells data tag h1, Ne.symm h2]

theorem countElemIn_cells (data : List String) (tag : String) (htag : tag ≠ "td") :
    countElemIn tag (data.map cellOf) = 0 := by
  induction data with
  | nil => rfl
  | cons s rest ih =>
    simp [countElemIn, countElem, cellOf, ih, Ne.symm htag]

theorem countElem_newRow_table (data : List String) : countElem "table" (newRow data) = 0 := by
  rw [newRow_eq]
  simp [countElem, countElemIn_cells data "table" (by decide)]

theorem countElem_newRow_tr (data : List String) : countElem "tr" (newRow data) = 1 := by
  rw [newRow_eq]
  simp [countElem, countElemIn_cells data "tr" (by decide)]

theorem heightIn_cells (data : List String) : heightIn (data.map cellOf) ≤ 2 := by
  induction data with
  | nil => simp [heightIn]
  | cons s rest ih =>
    simp only [List.map_cons, heightIn]
    have : height (cellOf s) = 2 := by simp [cellOf, height, heightIn]
    omega

theorem height_newRow (data : List String) : height (newRow data) ≤ 3 := by
  rw [newRow_eq]
  have := heightIn_cells data
  simp only [height]; omega

/-! ## Pointers into a tree -/

theorem modifyAt_length (fn : Node → Node) (i : Nat) (cs : List Node) :
    (modifyAt fn i cs).length = cs.length := by
  induction cs generalizing i with
  | nil => simp [modifyAt]
  | cons c cs ih => cases i <;> simp [modifyAt, ih]

theorem modifyAt_append (fn : Node → Node) (i : Nat) (cs : List Node) (x : Node)
    (hi : i < cs.length) : modifyAt fn i (cs ++ [x]) = modifyAt fn i cs ++ [x] := by
  induction cs generalizing i with
  | nil => simp at hi
  | cons c cs ih =>
    cases i with
    | zero => simp [modifyAt]
    | succ i =>
      simp only [List.length_cons, Nat.add_lt_add_iff_right] at hi
      simp [modifyAt, ih i hi]

theorem getElem?_modifyAt (fn : Node → Node) (i j : Nat) (cs : List Node) :
    (modifyAt fn i cs)[j]? = if i = j then (cs[j]?).map fn else cs[j]? := by
  induction cs generalizing i j with
  | nil => simp [modifyAt]
  | cons c cs ih =>
    cases i with
    | zero =>
      cases j with
      | zero => simp [modifyAt]
      | succ j => simp [modifyAt]
    | succ i =>
      cases j with
      | zero => simp [modifyAt]
      | succ j => simp [modifyAt, ih]

theorem modifyAt_comm (fn gn : Node → Node) (i j : Nat) (cs : List Node)
    (h : ∀ c, i = j → cs[i]? = some c → fn (gn c) = gn (fn c)) :
    modifyAt fn i (modifyAt gn j cs) = modifyAt gn j (modifyAt fn i cs) := by
  induction cs generalizing i j with
  | nil => simp [modifyAt]
  | cons c cs ih =>
    cases i with
    | zero =>
      cases j with
      | zero => simp [modifyAt, h c rfl (by simp)]
      | succ j => simp [modifyAt]
    | succ i =>
      cases j with
      | zero => simp [modifyAt]
      | succ j =>
        simp only [modifyAt, List.cons.injEq, true_and]
        apply ih
        intro d hij hd
        exact h d (by omega) (by simpa using hd)

theorem modifyAt_congr (fn gn : Node → Node) (i : Nat) (cs : List Node)
    (h : ∀ c, cs[i]? = some c → fn c = gn c) : modifyAt fn i cs = modifyAt gn i cs := by
  induction cs generalizing i with
  | nil => simp [modifyAt]
  | cons c cs ih =>
    cases i with
    | zero => simp [modifyAt, h c (by simp)]
    | succ i =>
      simp only [modifyAt, List.cons.injEq, true_and]
      exact ih i (fun d hd => h d (by simpa using hd))

theorem nodeAt_appendChildAt_self (x : Node) (q : List Nat) (n : Node) (h : NodeInfo)
    (kids : List Node) (hq : nodeAt n q = some (.mk h kids)) :
    nodeAt (appendChildAt q x n) q = some (.mk h (kids ++ [x])) := by
  induction q generalizing n with
  | nil =>
    simp only [nodeAt, Option.some.injEq] at hq
    subst hq
    simp [appendChildAt, nodeAt, Node.AppendChild, Node.info, Node.children]
  | cons i q ih =>
    obtain ⟨hn, cs⟩ := n
    simp only [nodeAt] at hq
    cases hc : cs[i]? with
    | none => simp [hc] at hq
    | some c =>
      simp only [hc] at hq
      simp [appendChildAt, nodeAt, getElem?_modifyAt, hc, ih c hq]

theorem nodeAt_appendChildAt_isSome (x : Node) (p q : List Nat) (n : Node)
    (hp : (nodeAt n p).isSome) : (nodeAt (appendChildAt q x n) p).isSome := by
  induction p generalizing q n with
  | nil => simp [nodeAt]
  | cons i p ih =>
    obtain ⟨hn, cs⟩ := n
    simp only [nodeAt] at hp
    cases hc : cs[i]? with
    | none => simp [hc] at hp
    | some c =>
      simp only [hc] at hp
      cases q with
      | nil =>
        have hi : i < cs.length := by
          rcases List.getElem?_eq_some_iff.mp hc with ⟨hi, _⟩
          exact hi
        have : (cs ++ [x])[i]? = some c := by
          rw [List.getElem?_append_left hi]; exact hc
        simp [appendChildAt, Node.AppendChild, Node.info, Node.children, nodeAt, this, hp]
      | cons j q =>
        simp only [appendChildAt, nodeAt, getElem?_modifyAt, hc]
        by_cases hji : j = i
        · simp [hji, ih q c hp]
        · simp [hji, hp]

theorem getElem?_lt_of_isSome (p : List Nat) (i : Nat) (h : NodeInfo) (cs : List Node)
    (hp : (nodeAt (.mk h cs) (i :: p)).isSome) : i < cs.length := by
  simp only [nodeAt] at hp
  cases hc : cs[i]? with
  | none => simp [hc] at hp
  | some c =>
    rcases List.getElem?_eq_some_iff.mp hc with ⟨hi, _⟩
    exact hi

theorem appendChildAt_comm (x : Node) (p q : List Nat) (n : Node)
    (hp : (nodeAt n p).isSome) (hq : (nodeAt n q).isSome) :
    appendChildAt p x (appendChildAt q x n) = appendChildAt q x (appendChildAt p x n) := by
  induction p generalizing q n with
  | nil =>
    cases q with
    | nil => rfl
    | cons j q =>
      obtain ⟨hn, cs⟩ := n
      have hj := getElem?_lt_of_isSome q j hn cs hq
      simp [appendChildAt, Node.AppendChild, Node.info, Node.children, modifyAt_append _ j cs x hj]
  | cons i p ih =>
    obtain ⟨hn, cs⟩ := n
    have hi := getElem?_lt_of_isSome p i hn cs hp
    cases q with
    | nil =>
      simp [appendChildAt, Node.AppendChild, Node.info, Node.children, modifyAt_append _ i cs x hi]
    | cons j q =>
      simp only [appendChildAt, Node.mk.injEq, true_and]
      apply modifyAt_comm
      intro c hij hc
      subst hij
      simp only [nodeAt, hc] at hp hq
      exact ih q c hp hq

/-! ## `findElement` -/

theorem findElementIn_some (cs : List Node) (tag : String) (q : List Nat)
    (h : findElementIn cs tag = some q) :
    ∃ i p c, q = i :: p ∧ cs[i]? = some c ∧ findElement c tag = some p := by
  induction cs generalizing q with
  | nil => simp [findElementIn] at h
  | cons c cs ih =>
    simp only [findElementIn] at h
    cases hc : findElement c tag with
    | some p =>
      simp only [hc, Option.some.injEq] at h
      exact ⟨0, p, c, h.symm, by simp, hc⟩
    | none =>
      simp only [hc] at h
      cases hr : findElementIn cs tag with
      | none => simp [hr] at h
      | some r =>
        obtain ⟨i, p, d, hq, hget, hf⟩ := ih r hr
        subst hq
        simp only [hr, Option.some.injEq] at h
        exact ⟨i + 1, p, d, h.symm, by simpa using hget, hf⟩

theorem findElement_nodeAt (tag : String) (n : Node) :
    ∀ q, findElement n tag = some q →
      ∃ h kids, nodeAt n q = some (.mk h kids) ∧ isElem tag h := by
  induction n using Node.ind_aux with
  | step h cs ih =>
    intro q hq
    simp only [findElement] at hq
    by_cases hg : h.Kind = NodeType.ElementNode ∧ h.Data = tag
    · simp only [hg, and_self, if_true, Option.some.injEq] at hq
      subst hq
      exact ⟨h, cs, rfl, hg⟩
    · simp only [hg, if_false] at hq
      obtain ⟨i, p, c, rfl, hget, hf⟩ := findElementIn_some cs tag q hq
      obtain ⟨h1, kids, hn, he⟩ := ih c (List.getElem?_mem hget) p hf
      exact ⟨h1, kids, by simp [nodeAt, hget, hn], he⟩

theorem findElement_isSome (tag : String) (n : Node) (q : List Nat)
    (hq : findElement n tag = some q) : (nodeAt n q).isSome := by
  obtain ⟨h, kids, hn, _⟩ := findElement_nodeAt tag n q hq
  simp [hn]

theorem findElementIn_append_one (cs : List Node) (x : Node) (tag : String)
    (hx : findElement x tag = none) :
    findElementIn (cs ++ [x]) tag = findElementIn cs tag := by
  induction cs with
  | nil => simp [findElementIn, hx]
  | cons c cs ih =>
    have ih1 : findElementIn (cs.append [x]) tag = findElementIn cs tag := ih
    simp only [List.cons_append, findElementIn, ih1]

theorem findElementIn_modifyAt (fn : Node → Node) (tag : String) (i : Nat) (cs : List Node)
    (h : ∀ c, cs[i]? = some c → findElement (fn c) tag = findElement c tag) :
    findElementIn (modifyAt fn i cs) tag = findElementIn cs tag := by
  induction cs generalizing i with
  | nil => simp [modifyAt]
  | cons c cs ih =>
    cases i with
    | zero => simp only [modifyAt, findElementIn, h c (by simp)]
    | succ i =>
      simp only [modifyAt, findElementIn]
      rw [ih i (fun d hd => h d (by simpa using hd))]

theorem findElement_appendChildAt (x : Node) (tag : String) (hx : findElement x tag = none)
    (p : List Nat) (n : Node) :
    findElement (appendChildAt p x n) tag = findElement n tag := by
  induction p generalizing n with
  | nil =>
    obtain ⟨h, cs⟩ := n
    simp [appendChildAt, Node.AppendChild, Node.info, Node.children, findElement,
      findElementIn_append_one cs x tag hx]
  | cons i p ih =>
    obtain ⟨h, cs⟩ := n
    simp only [appendChildAt, findElement]
    rw [findElementIn_modifyAt _ tag i cs (fun c _ => ih c)]

theorem findElementIn_first (tag : String) (pre : List Node) (c : Node) (post : List Node)
    (p : List Nat) (hpre : ∀ d ∈ pre, findElement d tag = none)
    (hc : findElement c tag = some p) :
    findElementIn (pre ++ c :: post) tag = some (pre.length :: p) := by
  induction pre with
  | nil => simp [findElementIn, hc]
  | cons d ds ih =>
    have hd := hpre d (by simp)
    have := ih (fun e he => hpre e (by simp [he]))
    simp [findElementIn, hd, this]

theorem findElementIn_none_iff (tag : String) (cs : List Node)
    (ih : ∀ c ∈ cs, (countElem tag c = 0 ↔ findElement c tag = none)) :
    countElemIn tag cs = 0 ↔ findElementIn cs tag = none := by
  induction cs with
  | nil => simp [countElemIn, findElementIn]
  | cons c cs ihl =>
    have hc := ih c (by simp)
    have hl := ihl (fun d hd => ih d (by simp [hd]))
    simp only [countElemIn, findElementIn, Nat.add_eq_zero, hc, hl]
    constructor
    · rintro ⟨h1, h2⟩
      simp [h1, h2]
    · intro h
      cases h1 : findElement c tag with
      | some p => simp [h1] at h
      | none =>
        simp only [h1] at h
        cases h2 : findElementIn cs tag with
        | none => simp
        | some r =>
          obtain ⟨i, p, d, rfl, _, _⟩ := findElementIn_some cs tag r h2
          simp [h2] at h

theorem findElement_none_iff (tag : String) (n : Node) :
    countElem tag n = 0 ↔ findElement n tag = none := by
  induction n using Node.ind_aux with
  | step h cs ih =>
    have hl := findElementIn_none_iff tag cs ih
    simp only [countElem, findElement]
    by_cases hg : h.Kind = NodeType.ElementNode ∧ h.Data = tag
    · simp [hg]
    · simp [hg, hl]

/-! ## `addRow` as one append at the insertion target -/

theorem addRow_eq (n : Node) (data : List String) :
    addRow n data = appendChildAt (insertionTarget n) (newRow data) n := by
  unfold addRow insertionTarget
  cases findElement n "tbody" <;> rfl

theorem findElement_newRow_tbody (data : List String) :
    findElement (newRow data) "tbody" = none :=
  findElement_newRow data "tbody" (by decide) (by decide)

theorem insertionTarget_isSome (n : Node) : (nodeAt n (insertionTarget n)).isSome := by
  unfold insertionTarget
  cases hq : findElement n "tbody" with
  | none => simp [nodeAt]
  | some q => exact findElement_isSome "tbody" n q hq

theorem insertionTarget_appendChildAt (data : List String) (p : List Nat) (n : Node) :
    insertionTarget (appendChildAt p (newRow data) n) = insertionTarget n := by
  unfold insertionTarget
  rw [findElement_appendChildAt _ "tbody" (findElement_newRow_tbody data)]

theorem info_appendChildAt (x : Node) (p : List Nat) (n : Node) :
    (appendChildAt p x n).info = n.info := by
  cases p <;> cases n <;> rfl

theorem addRow_appendChildAt (data : List String) (p : List Nat) (m : Node)
    (hp : (nodeAt m p).isSome) :
    addRow (appendChildAt p (newRow data) m) data = appendChildAt p (newRow data) (addRow m data) := by
  rw [addRow_eq, addRow_eq, insertionTarget_appendChildAt]
  exact appendChildAt_comm _ _ _ _ (insertionTarget_isSome m) hp

/-! ## Counting and height under an append -/

theorem countElemIn_append (tag : String) (cs ds : List Node) :
    countElemIn tag (cs ++ ds) = countElemIn tag cs + countElemIn tag ds := by
  simp [countElemIn_eq_sum]

theorem countElemIn_modifyAt (tag : String) (fn : Node → Node) (k : Nat) (i : Nat)
    (cs : List Node) (c : Node) (hc : cs[i]? = some c)
    (h : countElem tag (fn c) = countElem tag c + k) :
    countElemIn tag (modifyAt fn i cs) = countElemIn tag cs + k := by
  induction cs generalizing i with
  | nil => simp at hc
  | cons d ds ih =>
    cases i with
    | zero =>
      simp only [List.getElem?_cons_zero, Option.some.injEq] at hc
      subst hc
      simp only [modifyAt, countElemIn, h]; omega
    | succ i =>
      simp only [List.getElem?_cons_succ] at hc
      simp only [modifyAt, countElemIn, ih i hc]; omega

theorem countElem_appendChildAt (tag : String) (x : Node) (p : List Nat) (n : Node)
    (hp : (nodeAt n p).isSome) :
    countElem tag (appendChildAt p x n) = countElem tag n + countElem tag x := by
  induction p generalizing n with
  | nil =>
    obtain ⟨h, cs⟩ := n
    simp only [appendChildAt, Node.AppendChild, Node.info, Node.children, countElem,
      countElemIn_append, countElemIn]
    omega
  | cons i p ih =>
    obtain ⟨h, cs⟩ := n
    simp only [nodeAt] at hp
    cases hc : cs[i]? with
    | none => simp [hc] at hp
    | some c =>
      simp only [hc] at hp
      simp only [appendChildAt, countElem,
        countElemIn_modifyAt tag _ (countElem tag x) i cs c hc (ih c hp)]
      omega

theorem heightIn_append_one (cs : List Node) (x : Node) :
    heightIn (cs ++ [x]) = max (heightIn cs) (height x) := by
  induction cs with
  | nil => simp [heightIn]
  | cons c cs ih =>
    have ih1 : heightIn (cs.append [x]) = max (heightIn cs) (height x) := ih
    simp only [List.cons_append, heightIn, ih1]; omega

theorem heightIn_modifyAt (fn : Node → Node) (k : Nat) (i : Nat) (cs : List Node)
    (h : ∀ c, height (fn c) ≤ height c + k) :
    heightIn (modifyAt fn i cs) ≤ heightIn cs + k := by
  induction cs generalizing i with
  | nil => simp [modifyAt, heightIn]
  | cons d ds ih =>
    cases i with
    | zero =>
      have := h d
      simp only [modifyAt, heightIn]; omega
    | succ i =>
      have := ih i
      simp only [modifyAt, heightIn]; omega

theorem height_appendChildAt (x : Node) (p : List Nat) (n : Node) :
    height (appendChildAt p x n) ≤ height n + height x := by
  induction p generalizing n with
  | nil =>
    obtain ⟨h, cs⟩ := n
    simp only [appendChildAt, Node.AppendChild, Node.info, Node.children, height,
      heightIn_append_one]
    omega
  | cons i p ih =>
    obtain ⟨h, cs⟩ := n
    have := heightIn_modifyAt (appendChildAt p x) (height x) i cs (fun c => ih c)
    simp only [appendChildAt, height]
    omega

theorem countElem_addRow (tag : String) (n : Node) (data : List String) :
    countElem tag (addRow n data) = countElem tag n + countElem tag (newRow data) := by
  rw [addRow_eq]
  exact countElem_appendChildAt tag _ _ n (insertionTarget_isSome n)

theorem height_addRow (n : Node) (data : List String) :
    height (addRow n data) ≤ height n + 3 := by
  rw [addRow_eq]
  have h1 := height_appendChildAt (newRow data) (insertionTarget n) n
  have h2 := height_newRow data
  omega

/-! ## The bottom-up form of the traversal -/

theorem bottomUp_eq (data : List String) (n : Node) :
    bottomUp data n =
      if n.info.Kind = NodeType.ElementNode ∧ n.info.Data = "table" then
        addRow (under data n) data
      else under data n := by
  cases n
  simp [bottomUp, under, bottomUpIn_eq_map, Node.info, Node.children]

theorem height_eq (n : Node) : height n = heightIn n.children + 1 := by
  cases n; rfl

theorem countElem_eq (tag : String) (n : Node) :
    countElem tag n =
      (if n.info.Kind = NodeType.ElementNode ∧ n.info.Data = tag then 1 else 0)
        + countElemIn tag n.children := by
  cases n; rfl

theorem bottomUp_of_no_table (data : List String) (n : Node) :
    countElem "table" n = 0 → bottomUp data n = n := by
  induction n using Node.ind_aux with
  | step h cs ih =>
    intro hz
    rw [countElem_eq] at hz
    simp only [Node.info, Node.children] at hz
    have hg : ¬ (h.Kind = NodeType.ElementNode ∧ h.Data = "table") := by
      intro hg
      simp [hg] at hz
    have hcs : countElemIn "table" cs = 0 := by omega
    have hmap : cs.map (bottomUp data) = cs := by
      conv_rhs => rw [← List.map_id cs]
      apply List.map_congr_left
      intro c hc
      have := countElem_le_countElemIn "table" cs c hc
      simpa using ih c hc (by omega)
    rw [bottomUp_eq]
    simp [Node.info, Node.children, hg, under, hmap]

theorem bottomUp_newRow (data : List String) : bottomUp data (newRow data) = newRow data :=
  bottomUp_of_no_table data _ (countElem_newRow_table data)

theorem nodeAt_bottomUp_isSome (data : List String) (p : List Nat) (n : Node)
    (hp : (nodeAt n p).isSome) : (nodeAt (bottomUp data n) p).isSome := by
  induction p generalizing n with
  | nil => simp [nodeAt]
  | cons i p ih =>
    have hu : (nodeAt (under data n) (i :: p)).isSome := by
      obtain ⟨h, cs⟩ := n
      simp only [nodeAt] at hp
      cases hc : cs[i]? with
      | none => simp [hc] at hp
      | some c =>
        simp only [hc] at hp
        simp [under, Node.info, Node.children, nodeAt, hc, ih c hp]
    rw [bottomUp_eq]
    split
    · rw [addRow_eq]
      exact nodeAt_appendChildAt_isSome _ _ _ _ hu
    · exact hu

theorem nodeAt_under_isSome (data : List String) (p : List Nat) (n : Node)
    (hp : (nodeAt n p).isSome) : (nodeAt (under data n) p).isSome := by
  cases p with
  | nil => simp [nodeAt]
  | cons i p =>
    obtain ⟨h, cs⟩ := n
    simp only [nodeAt] at hp
    cases hc : cs[i]? with
    | none => simp [hc] at hp
    | some c =>
      simp only [hc] at hp
      simp [under, Node.info, Node.children, nodeAt, hc, nodeAt_bottomUp_isSome data p c hp]

theorem map_modifyAt (fn gn : Node → Node) (i : Nat) (cs : List Node)
    (h : ∀ c, cs[i]? = some c → gn (fn c) = fn (gn c)) :
    (modifyAt fn i cs).map gn = modifyAt fn i (cs.map gn) := by
  induction cs generalizing i with
  | nil => simp [modifyAt]
  | cons c cs ih =>
    cases i with
    | zero => simp [modifyAt, h c (by simp)]
    | succ i =>
      simp only [modifyAt, List.map_cons, List.cons.injEq, true_and]
      exact ih i (fun d hd => h d (by simpa using hd))

theorem under_appendChildAt_aux (data : List String) (p : List Nat) (n : Node)
    (ih : ∀ i q c, p = i :: q → n.children[i]? = some c →
      bottomUp data (appendChildAt q (newRow data) c)
        = appendChildAt q (newRow data) (bottomUp data c)) :
    under data (appendChildAt p (newRow data) n)
      = appendChildAt p (newRow data) (under data n) := by
  obtain ⟨h, cs⟩ := n
  cases p with
  | nil =>
    simp [under, appendChildAt, Node.AppendChild, Node.info, Node.children, bottomUp_newRow]
  | cons i q =>
    simp only [under, appendChildAt, Node.info, Node.children, Node.mk.injEq, true_and]
    exact map_modifyAt _ _ i cs (fun c hc => ih i q c rfl hc)

theorem bottomUp_appendChildAt (data : List String) (p : List Nat) (n : Node)
    (hp : (nodeAt n p).isSome) :
    bottomUp data (appendChildAt p (newRow data) n)
      = appendChildAt p (newRow data) (bottomUp data n) := by
  induction p generalizing n with
  | nil =>
    have hu := under_appendChildAt_aux data [] n (by intro i q c h; cases h)
    rw [bottomUp_eq, bottomUp_eq data n, info_appendChildAt, hu]
    split
    · exact addRow_appendChildAt data [] _ (by simp [nodeAt])
    · rfl
  | cons i p ih =>
    have hu := under_appendChildAt_aux data (i :: p) n (by
      intro j q c hj hc
      cases hj
      apply ih
      obtain ⟨h, cs⟩ := n
      simp only [Node.children] at hc
      simpa [nodeAt, hc] using hp)
    rw [bottomUp_eq, bottomUp_eq data n, info_appendChildAt, hu]
    split
    · exact addRow_appendChildAt data (i :: p) _ (nodeAt_under_isSome data _ n hp)
    · rfl

theorem under_appendChildAt (data : List String) (p : List Nat) (n : Node)
    (hp : (nodeAt n p).isSome) :
    under data (appendChildAt p (newRow data) n)
      = appendChildAt p (newRow data) (under data n) := by
  apply under_appendChildAt_aux
  intro i q c hpq hc
  subst hpq
  apply bottomUp_appendChildAt
  obtain ⟨h, cs⟩ := n
  simp only [Node.children] at hc
  simpa [nodeAt, hc] using hp

theorem findElementIn_map (gn : Node → Node) (tag : String) (cs : List Node)
    (h : ∀ c ∈ cs, findElement (gn c) tag = findElement c tag) :
    findElementIn (cs.map gn) tag = findElementIn cs tag := by
  induction cs with
  | nil => rfl
  | cons c cs ih =>
    simp only [List.map_cons, findElementIn, h c (by simp),
      ih (fun d hd => h d (by simp [hd]))]

theorem findElement_addRow (data : List String) (n : Node) :
    findElement (addRow n data) "tbody" = findElement n "tbody" := by
  rw [addRow_eq]
  exact findElement_appendChildAt _ "tbody" (findElement_newRow_tbody data) _ n

theorem findElement_under (data : List String) (n : Node)
    (ih : ∀ c ∈ n.children, findElement (bottomUp data c) "tbody" = findElement c "tbody") :
    findElement (under data n) "tbody" = findElement n "tbody" := by
  obtain ⟨h, cs⟩ := n
  simp only [under, Node.info, Node.children, findElement]
  rw [findElementIn_map _ "tbody" cs ih]

theorem findElement_bottomUp (data : List String) (n : Node) :
    findElement (bottomUp data n) "tbody" = findElement n "tbody" := by
  induction n using Node.ind_aux with
  | step h cs ih =>
    have hu := findElement_under data (.mk h cs) ih
    rw [bottomUp_eq]
    split
    · rw [findElement_addRow, hu]
    · exact hu

theorem addRow_under (data : List String) (n : Node) :
    under data (addRow n data) = addRow (under data n) data := by
  rw [addRow_eq, addRow_eq, under_appendChildAt data _ n (insertionTarget_isSome n)]
  have : insertionTarget (under data n) = insertionTarget n := by
    unfold insertionTarget
    rw [findElement_under data n (fun c _ => findElement_bottomUp data c)]
  rw [this]

/-! ## The traversal terminates and equals its bottom-up form -/

theorem walkChildren_eq (fn : Node → Option (Node × Nat)) (gn : Node → Node)
    (kn : Node → Nat) (cs : List Node) (h : ∀ c ∈ cs, fn c = some (gn c, kn c)) :
    walkChildren fn cs = some (cs.map gn, (cs.map kn).sum) := by
  induction cs with
  | nil => rfl
  | cons c cs ih =>
    simp [walkChildren, h c (by simp), ih (fun d hd => h d (by simp [hd]))]

theorem f_succ_table (data : List String) (fuel : Nat) (n : Node)
    (hg : n.info.Kind = NodeType.ElementNode ∧ n.info.Data = "table") :
    f data (fuel + 1) n =
      match walkChildren (f data fuel) (addRow n data).children with
      | none => none
      | some (cs, m) => some (.mk (addRow n data).info cs, 1 + m) := by
  simp [f, hg]

theorem f_succ_other (data : List String) (fuel : Nat) (n : Node)
    (hg : ¬ (n.info.Kind = NodeType.ElementNode ∧ n.info.Data = "table")) :
    f data (fuel + 1) n =
      match walkChildren (f data fuel) n.children with
      | none => none
      | some (cs, m) => some (.mk n.info cs, m) := by
  simp [f, hg]

theorem height_pos (n : Node) : 0 < height n := by
  rw [height_eq]; omega

theorem f_eq_bottomUp (data : List String) (fuel : Nat) :
    ∀ n, fuelBound n ≤ fuel →
      f data fuel n = some (bottomUp data n, countElem "table" n) := by
  induction fuel with
  | zero =>
    intro n hb
    have := height_pos n
    unfold fuelBound at hb
    omega
  | succ fuel ih =>
    intro n hb
    unfold fuelBound at hb
    by_cases hg : n.info.Kind = NodeType.ElementNode ∧ n.info.Data = "table"
    · have hcnt : countElem "table" (addRow n data) = countElem "table" n := by
        rw [countElem_addRow, countElem_newRow_table]; rfl
      have hh := height_addRow n data
      have hinfo : (addRow n data).info = n.info := by
        rw [addRow_eq, info_appendChildAt]
      have hc1 := countElem_eq "table" (addRow n data)
      rw [hinfo, if_pos hg, hcnt] at hc1
      have hh1 := height_eq (addRow n data)
      have hw := walkChildren_eq (f data fuel) (bottomUp data) (countElem "table")
        (addRow n data).children (by
          intro c hc
          apply ih
          have h1 := height_le_heightIn _ c hc
          have h2 := countElem_le_countElemIn "table" _ c hc
          unfold fuelBound
          omega)
      rw [f_succ_table data fuel n hg, hw]
      have hb2 : bottomUp data n = under data (addRow n data) := by
        rw [bottomUp_eq, if_pos hg, addRow_under]
      rw [hb2, ← countElemIn_eq_sum, hc1]
      rfl
    · have hc1 := countElem_eq "table" n
      rw [if_neg hg] at hc1
      have hh1 := height_eq n
      have hw := walkChildren_eq (f data fuel) (bottomUp data) (countElem "table")
        n.children (by
          intro c hc
          apply ih
          have h1 := height_le_heightIn _ c hc
          have h2 := countElem_le_countElemIn "table" _ c hc
          unfold fuelBound
          omega)
      rw [f_succ_other data fuel n hg, hw, bottomUp_eq, if_neg hg, ← countElemIn_eq_sum, hc1]
      simp [under]

/-! ## What the traversal adds -/

theorem countElemIn_map_bottomUp (data : List String) (tag : String) (cs : List Node)
    (ih : ∀ c ∈ cs, countElem tag (bottomUp data c)
      = countElem tag c + countElem "table" c * countElem tag (newRow data)) :
    countElemIn tag (cs.map (bottomUp data))
      = countElemIn tag cs + countElemIn "table" cs * countElem tag (newRow data) := by
  induction cs with
  | nil => simp [countElemIn]
  | cons c cs ihl =>
    simp only [List.map_cons, countElemIn, ih c (by simp),
      ihl (fun d hd => ih d (by simp [hd]))]
    ring

theorem countElem_bottomUp (data : List String) (tag : String) (n : Node) :
    countElem tag (bottomUp data n)
      = countElem tag n + countElem "table" n * countElem tag (newRow data) := by
  induction n using Node.ind_aux with
  | step h cs ih =>
    have hl := countElemIn_map_bottomUp data tag cs ih
    have hu : countElem tag (under data (.mk h cs))
        = countElem tag (.mk h cs) + countElemIn "table" cs * countElem tag (newRow data) := by
      simp only [under, Node.info, Node.children, countElem, hl]
      ring
    rw [bottomUp_eq]
    by_cases hg : h.Kind = NodeType.ElementNode ∧ h.Data = "table"
    · simp only [Node.info, hg, and_self, if_true]
      rw [countElem_addRow, hu]
      simp only [countElem, hg, and_self, if_true]
      ring
    · simp only [Node.info, hg, if_false]
      rw [hu]
      simp only [countElem, hg, if_false]
      ring

theorem countElem_tr_bottomUp (data : List String) (n : Node) :
    countElem "tr" (bottomUp data n) = countElem "tr" n + countElem "table" n := by
  rw [countElem_bottomUp, countElem_newRow_tr, Nat.mul_one]

theorem countElem_table_bottomUp (data : List String) (n : Node) :
    countElem "table" (bottomUp data n) = countElem "table" n := by
  rw [countElem_bottomUp, countElem_newRow_table, Nat.mul_zero, Nat.add_zero]

theorem countElemIn_le_modifyAt (tag : String) (fn : Node → Node) (i : Nat) (cs : List Node)
    (h : ∀ c, countElem tag c ≤ countElem tag (fn c)) :
    countElemIn tag cs ≤ countElemIn tag (modifyAt fn i cs) := by
  induction cs generalizing i with
  | nil => simp [modifyAt]
  | cons d ds ih =>
    cases i with
    | zero =>
      have := h d
      simp only [modifyAt, countElemIn]; omega
    | succ i =>
      have := ih i
      simp only [modifyAt, countElemIn]; omega

theorem countElem_le_appendChildAt (tag : String) (x : Node) (q : List Nat) (n : Node) :
    countElem tag n ≤ countElem tag (appendChildAt q x n) := by
  induction q generalizing n with
  | nil =>
    obtain ⟨h, cs⟩ := n
    simp only [appendChildAt, Node.AppendChild, Node.info, Node.children, countElem,
      countElemIn_append]
    omega
  | cons i q ih =>
    obtain ⟨h, cs⟩ := n
    have := countElemIn_le_modifyAt tag (appendChildAt q x) i cs (fun c => ih c)
    simp only [appendChildAt, countElem]
    omega

theorem nodeAt_appendChildAt_count (tag : String) (x : Node) (p q : List Nat) (m a : Node)
    (hp : nodeAt m p = some a) :
    ∃ b, nodeAt (appendChildAt q x m) p = some b ∧ countElem tag a ≤ countElem tag b := by
  induction p generalizing q m with
  | nil =>
    simp only [nodeAt, Option.some.injEq] at hp
    subst hp
    exact ⟨_, by simp [nodeAt], countElem_le_appendChildAt tag x q m⟩
  | cons i p ih =>
    obtain ⟨hn, cs⟩ := m
    simp only [nodeAt] at hp
    cases hc : cs[i]? with
    | none => simp [hc] at hp
    | some c =>
      simp only [hc] at hp
      cases q with
      | nil =>
        have hi : i < cs.length := by
          rcases List.getElem?_eq_some_iff.mp hc with ⟨hi, _⟩
          exact hi
        have : (cs ++ [x])[i]? = some c := by
          rw [List.getElem?_append_left hi]; exact hc
        exact ⟨a, by simp [appendChildAt, Node.AppendChild, Node.info, Node.children,
          nodeAt, this, hp], Nat.le_refl _⟩
      | cons j q =>
        by_cases hji : j = i
        · obtain ⟨b, hb, hle⟩ := ih q c hp
          exact ⟨b, by simp [appendChildAt, nodeAt, getElem?_modifyAt, hc, hji, hb], hle⟩
        · exact ⟨a, by simp [appendChildAt, nodeAt, getElem?_modifyAt, hc, hji, hp],
            Nat.le_refl _⟩

theorem nodeAt_bottomUp_count (data : List String) (tag : String) (p : List Nat) (n a : Node)
    (hp : nodeAt n p = some a) :
    ∃ b, nodeAt (bottomUp data n) p = some b ∧
      countElem tag (bottomUp data a) ≤ countElem tag b := by
  induction p generalizing n with
  | nil =>
    simp only [nodeAt, Option.some.injEq] at hp
    subst hp
    exact ⟨_, by simp [nodeAt], Nat.le_refl _⟩
  | cons i p ih =>
    have hu : ∃ b, nodeAt (under data n) (i :: p) = some b ∧
        countElem tag (bottomUp data a) ≤ countElem tag b := by
      obtain ⟨h, cs⟩ := n
      simp only [nodeAt] at hp
      cases hc : cs[i]? with
      | none => simp [hc] at hp
      | some c =>
        simp only [hc] at hp
        obtain ⟨b, hb, hle⟩ := ih c hp
        exact ⟨b, by simp [under, Node.info, Node.children, nodeAt, hc, hb], hle⟩
    rw [bottomUp_eq]
    split
    · obtain ⟨b, hb, hle⟩ := hu
      rw [addRow_eq]
      obtain ⟨b1, hb1, hle1⟩ := nodeAt_appendChildAt_count tag (newRow data) (i :: p)
        (insertionTarget (under data n)) (under data n) b hb
      exact ⟨b1, hb1, Nat.le_trans hle hle1⟩
    · exact hu

theorem nodeAt_count_le (tag : String) (p : List Nat) (n a : Node)
    (hp : nodeAt n p = some a) : countElem tag a ≤ countElem tag n := by
  induction p generalizing n with
  | nil =>
    simp only [nodeAt, Option.some.injEq] at hp
    subst hp
    exact Nat.le_refl _
  | cons i p ih =>
    obtain ⟨h, cs⟩ := n
    simp only [nodeAt] at hp
    cases hc : cs[i]? with
    | none => simp [hc] at hp
    | some c =>
      simp only [hc] at hp
      have h1 := ih c hp
      have h2 := countElem_le_countElemIn tag cs c (List.getElem?_mem hc)
      simp only [countElem]
      omega

theorem nodeAt_append (n : Node) (p q : List Nat) :
    nodeAt n (p ++ q) = (nodeAt n p).bind (fun t => nodeAt t q) := by
  induction p generalizing n with
  | nil => simp [nodeAt]
  | cons i p ih =>
    obtain ⟨h, cs⟩ := n
    simp only [List.cons_append, nodeAt]
    cases cs[i]? with
    | none => rfl
    | some c => exact ih c

/-! ## The frame: only rows are added, and only as last children -/

theorem GrownIn_refl (x : Node) (cs : List Node) (ih : ∀ c ∈ cs, Grown x c c) :
    GrownIn x cs cs := by
  induction cs with
  | nil => simp [GrownIn]
  | cons c cs ihl =>
    simp only [GrownIn]
    exact ⟨ih c (by simp), ihl (fun d hd => ih d (by simp [hd]))⟩

theorem Grown_refl (x : Node) (n : Node) : Grown x n n := by
  induction n using Node.ind_aux with
  | step h cs ih =>
    simp only [Grown, true_and]
    exact GrownIn_refl x cs ih

theorem GrownIn_append_one (x : Node) (cs cs1 : List Node) (h : GrownIn x cs cs1) :
    GrownIn x cs (cs1 ++ [x]) := by
  induction cs generalizing cs1 with
  | nil =>
    simp only [GrownIn] at h ⊢
    intro y hy
    rcases List.mem_append.mp hy with hy | hy
    · exact h y hy
    · simpa using hy
  | cons c cs ih =>
    cases cs1 with
    | nil => simp [GrownIn] at h
    | cons c1 cs1 =>
      simp only [GrownIn] at h
      simp only [List.cons_append, GrownIn]
      exact ⟨h.1, ih cs1 h.2⟩

theorem GrownIn_modifyAt (x : Node) (fn : Node → Node) (i : Nat) (cs cs1 : List Node)
    (c : Node) (hc : cs[i]? = some c) (h : GrownIn x cs cs1)
    (hfn : ∀ c1, Grown x c c1 → Grown x c (fn c1)) :
    GrownIn x cs (modifyAt fn i cs1) := by
  induction cs generalizing i cs1 with
  | nil => simp at hc
  | cons d ds ih =>
    cases cs1 with
    | nil => simp [GrownIn] at h
    | cons d1 ds1 =>
      simp only [GrownIn] at h
      cases i with
      | zero =>
        simp only [List.getElem?_cons_zero, Option.some.injEq] at hc
        subst hc
        simp only [modifyAt, GrownIn]
        exact ⟨hfn d1 h.1, h.2⟩
      | succ i =>
        simp only [List.getElem?_cons_succ] at hc
        simp only [modifyAt, GrownIn]
        exact ⟨h.1, ih i ds1 hc h.2⟩

theorem Grown_appendChildAt (x : Node) (q : List Nat) (n m : Node)
    (hq : (nodeAt n q).isSome) (h : Grown x n m) : Grown x n (appendChildAt q x m) := by
  induction q generalizing n m with
  | nil =>
    obtain ⟨hn, cs⟩ := n
    obtain ⟨hm, cs1⟩ := m
    simp only [Grown] at h
    simp only [appendChildAt, Node.AppendChild, Node.info, Node.children, Grown]
    exact ⟨h.1, GrownIn_append_one x cs cs1 h.2⟩
  | cons i q ih =>
    obtain ⟨hn, cs⟩ := n
    obtain ⟨hm, cs1⟩ := m
    simp only [Grown] at h
    simp only [nodeAt] at hq
    cases hc : cs[i]? with
    | none => simp [hc] at hq
    | some c =>
      simp only [hc] at hq
      simp only [appendChildAt, Grown]
      exact ⟨h.1, GrownIn_modifyAt x _ i cs cs1 c hc h.2 (fun c1 hc1 => ih c c1 hq hc1)⟩

theorem GrownIn_map (x : Node) (gn : Node → Node) (cs : List Node)
    (ih : ∀ c ∈ cs, Grown x c (gn c)) : GrownIn x cs (cs.map gn) := by
  induction cs with
  | nil => simp [GrownIn]
  | cons c cs ihl =>
    simp only [List.map_cons, GrownIn]
    exact ⟨ih c (by simp), ihl (fun d hd => ih d (by simp [hd]))⟩

theorem Grown_bottomUp (data : List String) (n : Node) :
    Grown (newRow data) n (bottomUp data n) := by
  induction n using Node.ind_aux with
  | step h cs ih =>
    have hu : Grown (newRow data) (.mk h cs) (under data (.mk h cs)) := by
      simp only [under, Node.info, Node.children, Grown, true_and]
      exact GrownIn_map _ _ cs ih
    rw [bottomUp_eq]
    split
    · rw [addRow_eq]
      have ht : insertionTarget (under data (.mk h cs)) = insertionTarget (.mk h cs) := by
        unfold insertionTarget
        rw [findElement_under data _ (fun c _ => findElement_bottomUp data c)]
      rw [ht]
      exact Grown_appendChildAt _ _ _ _ (insertionTarget_isSome _) hu
    · exact hu

theorem cutToIn_of_GrownIn (x : Node) (cs : List Node)
    (ih : ∀ c ∈ cs, ∀ r, Grown x c r → cutTo c r = c) :
    ∀ cs1, GrownIn x cs cs1 → cutToIn cs cs1 = cs := by
  induction cs with
  | nil => intro cs1 _; simp [cutToIn]
  | cons c cs ihl =>
    intro cs1 h
    cases cs1 with
    | nil => simp [GrownIn] at h
    | cons c1 cs1 =>
      simp only [GrownIn] at h
      simp only [cutToIn, ih c (by simp) c1 h.1,
        ihl (fun d hd => ih d (by simp [hd])) cs1 h.2]

theorem cutTo_of_Grown (x : Node) (n : Node) : ∀ r, Grown x n r → cutTo n r = n := by
  induction n using Node.ind_aux with
  | step h cs ih =>
    intro r hr
    obtain ⟨h1, cs1⟩ := r
    simp only [Grown] at hr
    simp only [cutTo, hr.1, cutToIn_of_GrownIn x cs ih cs1 hr.2]

/-! ## A tree with exactly one table -/

theorem map_eq_modifyAt (gn fn : Node → Node) (i : Nat) (cs : List Node) (c : Node)
    (hc : cs[i]? = some c) (h1 : gn c = fn c)
    (h2 : ∀ j d, j ≠ i → cs[j]? = some d → gn d = d) : cs.map gn = modifyAt fn i cs := by
  induction cs generalizing i with
  | nil => simp at hc
  | cons d ds ih =>
    cases i with
    | zero =>
      simp only [List.getElem?_cons_zero, Option.some.injEq] at hc
      subst hc
      have hrest : ds.map gn = ds := by
        conv_rhs => rw [← List.map_id ds]
        apply List.map_congr_left
        intro e he
        obtain ⟨k, hk⟩ := List.getElem?_of_mem he
        simpa using h2 (k + 1) e (by omega) (by simpa using hk)
      simp [modifyAt, h1, hrest]
    | succ i =>
      simp only [List.getElem?_cons_succ] at hc
      have hd := h2 0 d (by omega) (by simp)
      simp only [List.map_cons, modifyAt, hd, List.cons.injEq, true_and]
      exact ih i hc (fun j e hj he => h2 (j + 1) e (by omega) (by simpa using he))

theorem countElem_others_zero (tag : String) (i : Nat) (cs : List Node) (c : Node)
    (hc : cs[i]? = some c) (h : countElemIn tag cs ≤ countElem tag c) :
    ∀ j d, j ≠ i → cs[j]? = some d → countElem tag d = 0 := by
  induction cs generalizing i with
  | nil => simp at hc
  | cons e es ih =>
    intro j d hj hd
    simp only [countElemIn] at h
    cases i with
    | zero =>
      simp only [List.getElem?_cons_zero, Option.some.injEq] at hc
      subst hc
      cases j with
      | zero => omega
      | succ j =>
        simp only [List.getElem?_cons_succ] at hd
        have := countElem_le_countElemIn tag es d (List.getElem?_mem hd)
        omega
    | succ i =>
      simp only [List.getElem?_cons_succ] at hc
      have hle := countElem_le_countElemIn tag es c (List.getElem?_mem hc)
      cases j with
      | zero =>
        simp only [List.getElem?_cons_zero, Option.some.injEq] at hd
        subst hd
        omega
      | succ j =>
        simp only [List.getElem?_cons_succ] at hd
        exact ih i hc (by omega) j d (by omega) hd

theorem bottomUp_single (data : List String) (p : List Nat) (n t : Node)
    (h1 : countElem "table" n = 1) (hp : nodeAt n p = some t)
    (ht : isElem "table" t.info) :
    bottomUp data n = appendChildAt (p ++ insertionTarget t) (newRow data) n := by
  induction p generalizing n with
  | nil =>
    simp only [nodeAt, Option.some.injEq] at hp
    subst hp
    have ht0 : n.info.Kind = NodeType.ElementNode ∧ n.info.Data = "table" := ht
    have hc := countElem_eq "table" n
    rw [if_pos ht0] at hc
    have hu : under data n = n := by
      obtain ⟨h, cs⟩ := n
      simp only [under, Node.info, Node.children, Node.mk.injEq, true_and]
      conv_rhs => rw [← List.map_id cs]
      apply List.map_congr_left
      intro c hcm
      have := countElem_le_countElemIn "table" cs c hcm
      simp only [Node.children] at hc
      simpa using bottomUp_of_no_table data c (by omega)
    rw [bottomUp_eq, if_pos ht0, hu, addRow_eq]
    rfl
  | cons i p ih =>
    obtain ⟨h, cs⟩ := n
    simp only [nodeAt] at hp
    cases hc : cs[i]? with
    | none => simp [hc] at hp
    | some c =>
      simp only [hc] at hp
      have ht0 : t.info.Kind = NodeType.ElementNode ∧ t.info.Data = "table" := ht
      have ht1 : 1 ≤ countElem "table" t := by
        rw [countElem_eq, if_pos ht0]; omega
      have hct := nodeAt_count_le "table" p c t hp
      have hle := countElem_le_countElemIn "table" cs c (List.getElem?_mem hc)
      simp only [countElem] at h1
      have hg : ¬ (h.Kind = NodeType.ElementNode ∧ h.Data = "table") := by
        intro hg
        simp only [hg, and_self, if_true] at h1
        omega
      simp only [hg, if_false] at h1
      have hothers := countElem_others_zero "table" i cs c hc (by omega)
      have hmap := map_eq_modifyAt (bottomUp data)
        (appendChildAt (p ++ insertionTarget t) (newRow data)) i cs c hc
        (ih c (by omega) hp)
        (fun j d hj hd => bottomUp_of_no_table data d (hothers j d hj hd))
      rw [bottomUp_eq]
      simp only [Node.info, hg, if_false, under, Node.children, hmap]
      rfl

/-! ## `findElement` returns the first match in pre-order -/

theorem findElementIn_some_first (cs : List Node) (tag : String) (i : Nat) (p : List Nat)
    (h : findElementIn cs tag = some (i :: p)) :
    ∀ j d, j < i → cs[j]? = some d → findElement d tag = none := by
  induction cs generalizing i with
  | nil => simp [findElementIn] at h
  | cons c cs ih =>
    intro j d hj hd
    simp only [findElementIn] at h
    cases hc : findElement c tag with
    | some p1 =>
      simp only [hc, Option.some.injEq, List.cons.injEq] at h
      omega
    | none =>
      simp only [hc] at h
      cases hr : findElementIn cs tag with
      | none => simp [hr] at h
      | some r =>
        obtain ⟨i1, p1, e, hq, _, _⟩ := findElementIn_some cs tag r hr
        subst hq
        simp only [hr, Option.some.injEq, List.cons.injEq] at h
        obtain ⟨hi, hpp⟩ := h
        subst hi
        subst hpp
        cases j with
        | zero =>
          simp only [List.getElem?_cons_zero, Option.some.injEq] at hd
          subst hd
          exact hc
        | succ j =>
          simp only [List.getElem?_cons_succ] at hd
          exact ih i1 hr j d (by omega) hd

theorem findElement_first (tag : String) (n : Node) :
    ∀ q, findElement n tag = some q →
      ∀ q1 t, visitedBefore q1 q = true → nodeAt n q1 = some t → ¬ isElem tag t.info := by
  induction n using Node.ind_aux with
  | step h cs ih =>
    intro q hq q1 t hv ht
    simp only [findElement] at hq
    by_cases hg : h.Kind = NodeType.ElementNode ∧ h.Data = tag
    · simp only [hg, and_self, if_true, Option.some.injEq] at hq
      subst hq
      cases q1 <;> simp [visitedBefore] at hv
    · simp only [hg, if_false] at hq
      obtain ⟨i, p, c, rfl, hget, hf⟩ := findElementIn_some cs tag q hq
      cases q1 with
      | nil =>
        simp only [nodeAt, Option.some.injEq] at ht
        subst ht
        exact hg
      | cons j p1 =>
        simp only [nodeAt] at ht
        cases hd : cs[j]? with
        | none => simp [hd] at ht
        | some d =>
          simp only [hd] at ht
          simp only [visitedBefore, Bool.or_eq_true, decide_eq_true_eq, Bool.and_eq_true,
            beq_iff_eq] at hv
          rcases hv with hlt | ⟨heq, hv⟩
          · have hnone := findElementIn_some_first cs tag i p hq j d hlt hd
            have hz := (findElement_none_iff tag d).mpr hnone
            have hle := nodeAt_count_le tag p1 d t ht
            intro hel
            have hel0 : t.info.Kind = NodeType.ElementNode ∧ t.info.Data = tag := hel
            have : 1 ≤ countElem tag t := by
              rw [countElem_eq, if_pos hel0]; omega
            omega
          · subst heq
            rw [hget] at hd
            cases hd
            exact ih c (List.getElem?_mem hget) p hf p1 t hv ht

theorem getElem?_middle (pre : List Node) (b : Node) (post : List Node) :
    (pre ++ b :: post)[pre.length]? = some b := by
  induction pre with
  | nil => simp
  | cons c cs ih => simpa using ih

theorem trCount_append_row (kids : List Node) (data : List String) :
    trCount (kids ++ [newRow data]) = trCount kids + 1 := by
  induction kids with
  | nil => simp [trCount, newRow_eq, Node.info]
  | cons c cs ih =>
    have ih1 : trCount (cs.append [newRow data]) = trCount cs + 1 := ih
    simp only [List.cons_append, trCount, ih1]
    omega

theorem rowData_newRow (data : List String) : rowData (newRow data).children = data := by
  rw [newRow_eq]
  exact rowData_map_cellOf data

/-! ## The claims -/

/-- C1 (counterexample). A document with two sibling tables: the traversal
calls `addRow` twice, two `tr` elements are added in total, and the second
table does not keep its subtree (its `tbody` is empty before and holds the new
row afterwards). -/
theorem changeHtml_two_tables_two_rows :
    countElem "table" docTwoTables = 2 ∧
    f ["d", "v"] 9 docTwoTables
      = some (docOf [el "table" [rowDV], el "table" [el "tbody" [rowDV]]], 2) ∧
    countElem "tr" (docOf [el "table" [rowDV], el "table" [el "tbody" [rowDV]]])
      = countElem "tr" docTwoTables + 2 ∧
    nodeAt docTwoTables [1] = some (el "table" [el "tbody" []]) ∧
    nodeAt (docOf [el "table" [rowDV], el "table" [el "tbody" [rowDV]]]) [1]
      = some (el "table" [el "tbody" [rowDV]]) ∧
    countElem "tr" (el "table" [el "tbody" [rowDV]])
      ≠ countElem "tr" (el "table" [el "tbody" []]) := by
  refine ⟨by decide, by rfl, by decide, by rfl, by rfl, by decide⟩

/-- C1 (corrected statement). For every document tree and every row, the traversal of
`changeHtml` (with enough fuel) calls `addRow` once for every element node
tagged `table`, the first one in pre-order and every later one alike: the
number of `tr` elements added in total is the number of `table` elements
(exactly one when the tree holds exactly one table), and below every position
that held a `table` the result holds at least one more `tr` than before. -/
theorem changeHtml_row_for_every_table (data : List String) (n : Node) (fuel : Nat)
    (hf : fuelBound n ≤ fuel) :
    ∃ r, f data fuel n = some (r, countElem "table" n) ∧
      countElem "tr" r = countElem "tr" n + countElem "table" n ∧
      (countElem "table" n = 1 → countElem "tr" r = countElem "tr" n + 1) ∧
      ∀ p t, nodeAt n p = some t → isElem "table" t.info →
        ∃ t1, nodeAt r p = some t1 ∧ countElem "tr" t + 1 ≤ countElem "tr" t1 := by
  refine ⟨bottomUp data n, f_eq_bottomUp data fuel n hf, countElem_tr_bottomUp data n, ?_, ?_⟩
  · intro h1
    rw [countElem_tr_bottomUp, h1]
  · intro p t hp ht
    obtain ⟨b, hb, hle⟩ := nodeAt_bottomUp_count data "tr" p n t hp
    refine ⟨b, hb, ?_⟩
    have ht0 : t.info.Kind = NodeType.ElementNode ∧ t.info.Data = "table" := ht
    have h1 : 1 ≤ countElem "table" t := by
      rw [countElem_eq, if_pos ht0]; omega
    rw [countElem_tr_bottomUp] at hle
    omega

/-- C1 (instance). The corrected statement at the document with two tables. -/
theorem changeHtml_row_for_every_table_witness :
    fuelBound docTwoTables ≤ 9 ∧
    ∃ r, f ["d", "v"] 9 docTwoTables = some (r, countElem "table" docTwoTables) ∧
      countElem "tr" r = countElem "tr" docTwoTables + countElem "table" docTwoTables ∧
      (countElem "table" docTwoTables = 1 →
        countElem "tr" r = countElem "tr" docTwoTables + 1) ∧
      ∀ p t, nodeAt docTwoTables p = some t → isElem "table" t.info →
        ∃ t1, nodeAt r p = some t1 ∧ countElem "tr" t + 1 ≤ countElem "tr" t1 :=
  ⟨by decide, changeHtml_row_for_every_table ["d", "v"] docTwoTables 9 (by decide)⟩

/-- C2 (the code at the failing input). The document parsed from
`<table><template><tbody></tbody></template><tbody></tbody></table>` has
exactly one table, and that table has a `tbody` child. The traversal calls
`addRow` once; the row goes to the `tbody` inside the `template`, and the
`tbody` child of the table is the same after the traversal as before: it has
no `tr` child before and none afterwards, where the claim (and the comment at
main.go 261-262) asks for one more. -/
theorem changeHtml_tbody_child_not_first :
    countElem "table" docTemplate = 1 ∧
    nodeAt docTemplate [0, 1, 0]
      = some (el "table" [el "template" [el "tbody" []], el "tbody" []]) ∧
    nodeAt docTemplate [0, 1, 0, 1] = some (el "tbody" []) ∧
    f ["d", "v"] 9 docTemplate
      = some (docOf [el "html" [el "head" [],
          el "body" [el "table" [el "template" [el "tbody" [rowDV]], el "tbody" []]]]], 1) ∧
    nodeAt (docOf [el "html" [el "head" [],
        el "body" [el "table" [el "template" [el "tbody" [rowDV]], el "tbody" []]]]])
      [0, 1, 0, 1] = some (el "tbody" []) ∧
    (nodeAt docTemplate [0, 1, 0, 1]).map (fun t => trCount t.children) = some 0 ∧
    (nodeAt (docOf [el "html" [el "head" [],
        el "body" [el "table" [el "template" [el "tbody" [rowDV]], el "tbody" []]]]])
      [0, 1, 0, 1]).map (fun t => trCount t.children) = some 0 := by
  refine ⟨by decide, by rfl, by rfl, by rfl, by rfl, by rfl, by rfl⟩

/-- Where the search of `addRow` does reach the `tbody` child. For every
document tree that contains exactly one `table` element, when that table has a
`tbody` child and no earlier child of the table is or contains a `tbody`, the
traversal (with enough fuel) calls `addRow` once
and changes the tree only by appending the new row to that `tbody`: its child
list is the old one followed by the new `tr`, so it has one more `tr` child,
the new `tr` is its last child, and the cell texts of the new `tr` are the row
values in order. -/
theorem changeHtml_single_table_tbody (data : List String) (doc : Node) (p : List Nat)
    (hT : NodeInfo) (pre : List Node) (hB : NodeInfo) (kids post : List Node) (fuel : Nat)
    (h1 : countElem "table" doc = 1)
    (hp : nodeAt doc p = some (.mk hT (pre ++ .mk hB kids :: post)))
    (hTt : isElem "table" hT) (hBt : isElem "tbody" hB)
    (hpre : ∀ c ∈ pre, countElem "tbody" c = 0)
    (hf : fuelBound doc ≤ fuel) :
    ∃ r, f data fuel doc = some (r, 1) ∧
      r = appendChildAt (p ++ [pre.length]) (newRow data) doc ∧
      nodeAt doc (p ++ [pre.length]) = some (.mk hB kids) ∧
      nodeAt r (p ++ [pre.length]) = some (.mk hB (kids ++ [newRow data])) ∧
      trCount (kids ++ [newRow data]) = trCount kids + 1 ∧
      (kids ++ [newRow data]).getLast? = some (newRow data) ∧
      rowData (newRow data).children = data := by
  have hfe : findElement (.mk hT (pre ++ .mk hB kids :: post)) "tbody" = some [pre.length] := by
    have hTn : ¬ (hT.Kind = NodeType.ElementNode ∧ hT.Data = "tbody") := by
      intro h
      have := hTt.2
      rw [h.2] at this
      exact absurd this (by decide)
    have hBf : findElement (.mk hB kids) "tbody" = some [] := by
      have hB0 : hB.Kind = NodeType.ElementNode ∧ hB.Data = "tbody" := hBt
      simp [findElement, hB0]
    simp only [findElement, hTn, if_false]
    exact findElementIn_first "tbody" pre _ post []
      (fun d hd => (findElement_none_iff "tbody" d).mp (hpre d hd)) hBf
  have htarget : insertionTarget (.mk hT (pre ++ .mk hB kids :: post)) = [pre.length] := by
    unfold insertionTarget
    rw [hfe]
  have hb := bottomUp_single data p doc _ h1 hp hTt
  rw [htarget] at hb
  have hB : nodeAt doc (p ++ [pre.length]) = some (.mk hB kids) := by
    rw [nodeAt_append, hp]
    simp only [Option.bind, nodeAt, getElem?_middle]
  refine ⟨bottomUp data doc, ?_, hb, hB, ?_, trCount_append_row kids data, by simp,
    rowData_newRow data⟩
  · have := f_eq_bottomUp data fuel doc hf
    rw [h1] at this
    exact this
  · rw [hb]
    exact nodeAt_appendChildAt_self _ _ _ _ _ hB

/-- The preceding statement at a document whose only table has a `tbody` as
its only child. -/
theorem changeHtml_single_table_tbody_witness :
    countElem "table" docOneTable = 1 ∧
    nodeAt docOneTable [0]
      = some (.mk (el "table" []).info ([] ++ .mk (el "tbody" []).info [rowDV] :: [])) ∧
    isElem "table" (el "table" []).info ∧ isElem "tbody" (el "tbody" []).info ∧
    (∀ c ∈ ([] : List Node), countElem "tbody" c = 0) ∧
    fuelBound docOneTable ≤ 9 ∧
    ∃ r, f ["d", "v"] 9 docOneTable = some (r, 1) ∧
      r = appendChildAt ([0] ++ [([] : List Node).length]) (newRow ["d", "v"]) docOneTable ∧
      nodeAt docOneTable ([0] ++ [([] : List Node).length])
        = some (.mk (el "tbody" []).info [rowDV]) ∧
      nodeAt r ([0] ++ [([] : List Node).length])
        = some (.mk (el "tbody" []).info ([rowDV] ++ [newRow ["d", "v"]])) ∧
      trCount ([rowDV] ++ [newRow ["d", "v"]]) = trCount [rowDV] + 1 ∧
      ([rowDV] ++ [newRow ["d", "v"]]).getLast? = some (newRow ["d", "v"]) ∧
      rowData (newRow ["d", "v"]).children = ["d", "v"] :=
  ⟨by decide, by rfl, ⟨rfl, rfl⟩, ⟨rfl, rfl⟩, by simp, by decide,
    changeHtml_single_table_tbody ["d", "v"] docOneTable [0] (el "table" []).info []
      (el "tbody" []).info [rowDV] [] 9 (by decide) (by rfl) ⟨rfl, rfl⟩ ⟨rfl, rfl⟩
      (by simp) (by decide)⟩

/-- C3 (the code at the failing input). The table parsed from
`<table><caption><table><tbody></tbody></table></caption></table>` has no
`tbody` among its direct children. `addRow` does not append the new `tr` to
the table, as the claim and the comment at main.go 262 ask: the table keeps
its single child, the caption, and the `tbody` of the table nested in the
caption, empty before, holds the new row afterwards. -/
theorem addRow_nested_tbody_gets_row :
    isElem "table" tblCaption.info ∧
    (∀ c ∈ tblCaption.children, ¬ isElem "tbody" c.info) ∧
    nodeAt tblCaption [0, 0, 0] = some (el "tbody" []) ∧
    addRow tblCaption ["d", "v"]
      = el "table" [el "caption" [el "table" [el "tbody" [rowDV]]]] ∧
    nodeAt (addRow tblCaption ["d", "v"]) [0, 0, 0] = some (el "tbody" [rowDV]) ∧
    (addRow tblCaption ["d", "v"]).children.length = tblCaption.children.length ∧
    (addRow tblCaption ["d", "v"]).children.getLast?
      = some (el "caption" [el "table" [el "tbody" [rowDV]]]) := by
  refine ⟨⟨rfl, rfl⟩, by decide, by rfl, by rfl, by rfl, by rfl, by rfl⟩

/-- The extent of the deep search. `addRow` looks for `tbody` in the whole
subtree of the table, in pre-order: for every table node that has no direct child tagged
`tbody` but has a `tbody` deeper in its subtree, `findElement` returns a
`tbody` at depth two or more before which no `tbody` is visited, `addRow`
appends the new `tr` as the last child of that `tbody`, and the table keeps
the number of its direct children. -/
theorem addRow_searches_whole_subtree (hT : NodeInfo) (cs : List Node) (data : List String)
    (hTt : isElem "table" hT)
    (hdirect : ∀ c ∈ cs, ¬ isElem "tbody" c.info)
    (hdeep : 0 < countElem "tbody" (.mk hT cs)) :
    ∃ q hB kids, findElement (.mk hT cs) "tbody" = some q ∧ 2 ≤ q.length ∧
      nodeAt (.mk hT cs) q = some (.mk hB kids) ∧ isElem "tbody" hB ∧
      (∀ q1 t, visitedBefore q1 q = true → nodeAt (.mk hT cs) q1 = some t →
        ¬ isElem "tbody" t.info) ∧
      addRow (.mk hT cs) data = appendChildAt q (newRow data) (.mk hT cs) ∧
      nodeAt (addRow (.mk hT cs) data) q = some (.mk hB (kids ++ [newRow data])) ∧
      (addRow (.mk hT cs) data).children.length = cs.length := by
  cases hq : findElement (.mk hT cs) "tbody" with
  | none =>
    have := (findElement_none_iff "tbody" (.mk hT cs)).mpr hq
    omega
  | some q =>
    obtain ⟨hB, kids, hn, hBt⟩ := findElement_nodeAt "tbody" _ q hq
    have hadd : addRow (.mk hT cs) data = appendChildAt q (newRow data) (.mk hT cs) := by
      rw [addRow_eq]; unfold insertionTarget; rw [hq]
    have hTn : ¬ (hT.Kind = NodeType.ElementNode ∧ hT.Data = "tbody") := by
      intro h
      have := hTt.2
      rw [h.2] at this
      exact absurd this (by decide)
    have hlen : 2 ≤ q.length := by
      cases q with
      | nil =>
        simp only [nodeAt, Option.some.injEq, Node.mk.injEq] at hn
        rw [hn.1] at hTn
        exact absurd hBt hTn
      | cons i q =>
        cases q with
        | nil =>
          simp only [nodeAt] at hn
          cases hc : cs[i]? with
          | none => simp [hc] at hn
          | some c =>
            simp only [hc, Option.some.injEq] at hn
            subst hn
            exact absurd hBt (hdirect _ (List.getElem?_mem hc))
        | cons j q => simp
    refine ⟨q, hB, kids, rfl, hlen, hn, hBt, findElement_first "tbody" _ q hq, hadd, ?_, ?_⟩
    · rw [hadd]
      exact nodeAt_appendChildAt_self _ _ _ _ _ hn
    · rw [hadd]
      cases q with
      | nil => simp at hlen
      | cons i q => simp [appendChildAt, Node.children, modifyAt_length]

/-- The preceding statement at a table with a table nested in a cell. -/
theorem addRow_searches_whole_subtree_witness :
    isElem "table" (el "table" []).info ∧
    (∀ c ∈ [el "tr" [el "td" [el "table" [el "tbody" []]]]], ¬ isElem "tbody" c.info) ∧
    0 < countElem "tbody"
      (.mk (el "table" []).info [el "tr" [el "td" [el "table" [el "tbody" []]]]]) ∧
    ∃ q hB kids,
      findElement (.mk (el "table" []).info [el "tr" [el "td" [el "table" [el "tbody" []]]]])
        "tbody" = some q ∧ 2 ≤ q.length ∧
      nodeAt (.mk (el "table" []).info [el "tr" [el "td" [el "table" [el "tbody" []]]]]) q
        = some (.mk hB kids) ∧ isElem "tbody" hB ∧
      (∀ q1 t, visitedBefore q1 q = true →
        nodeAt (.mk (el "table" []).info [el "tr" [el "td" [el "table" [el "tbody" []]]]]) q1
          = some t → ¬ isElem "tbody" t.info) ∧
      addRow (.mk (el "table" []).info [el "tr" [el "td" [el "table" [el "tbody" []]]]])
          ["d", "v"]
        = appendChildAt q (newRow ["d", "v"])
          (.mk (el "table" []).info [el "tr" [el "td" [el "table" [el "tbody" []]]]]) ∧
      nodeAt (addRow
          (.mk (el "table" []).info [el "tr" [el "td" [el "table" [el "tbody" []]]]])
          ["d", "v"]) q = some (.mk hB (kids ++ [newRow ["d", "v"]])) ∧
      (addRow (.mk (el "table" []).info [el "tr" [el "td" [el "table" [el "tbody" []]]]])
        ["d", "v"]).children.length
        = [el "tr" [el "td" [el "table" [el "tbody" []]]]].length :=
  ⟨⟨rfl, rfl⟩, by decide, by decide,
    addRow_searches_whole_subtree (el "table" []).info
      [el "tr" [el "td" [el "table" [el "tbody" []]]]] ["d", "v"] ⟨rfl, rfl⟩ (by decide)
      (by decide)⟩

/-- C4 (the code at the failing input). The table parsed from
`<table><caption>t<table><tr><td>d</td><td>v</td></tr></table></caption></table>`
has no `tbody` among its direct children. After `addRow` its child list is not
the previous child list followed by a new `tr`: the table still has one child,
the last child is the caption and not a `tr`, and the caption is no longer the
old one, because the row went to the `tbody` of the nested table. -/
theorem addRow_tbody_only_deeper :
    isElem "table" tblCaptionRow.info ∧
    (∀ c ∈ tblCaptionRow.children, ¬ isElem "tbody" c.info) ∧
    tblCaptionRow.children = [el "caption" [tx "t", el "table" [el "tbody" [rowDV]]]] ∧
    addRow tblCaptionRow ["d", "v"]
      = el "table" [el "caption" [tx "t", el "table" [el "tbody" [rowDV, rowDV]]]] ∧
    (addRow tblCaptionRow ["d", "v"]).children.length = 1 ∧
    (tblCaptionRow.children ++ [newRow ["d", "v"]]).length = 2 ∧
    (addRow tblCaptionRow ["d", "v"]).children.getLast?
      = some (el "caption" [tx "t", el "table" [el "tbody" [rowDV, rowDV]]]) ∧
    ¬ isElem "tr" (el "caption" [tx "t", el "table" [el "tbody" [rowDV, rowDV]]]).info ∧
    ((addRow tblCaptionRow ["d", "v"]).children.take 1).map (countElem "tr") = [2] ∧
    tblCaptionRow.children.map (countElem "tr") = [1] := by
  refine ⟨⟨rfl, rfl⟩, by decide, by rfl, by rfl, by rfl, by rfl, by rfl, by decide,
    by decide, by decide⟩

/-- Where `addRow` does append to the table. For every table node without any
`tbody` element in its subtree and every row, after `addRow` the child list of
the table is its previous child list, unchanged and in the same order,
followed by exactly one new element, the `tr` built from the row, as the last
direct child. -/
theorem addRow_without_tbody (hT : NodeInfo) (cs : List Node) (data : List String)
    (hTt : isElem "table" hT) (hno : countElem "tbody" (.mk hT cs) = 0) :
    addRow (.mk hT cs) data = .mk hT (cs ++ [newRow data]) ∧
    (addRow (.mk hT cs) data).children.take cs.length = cs ∧
    (addRow (.mk hT cs) data).children.length = cs.length + 1 ∧
    (addRow (.mk hT cs) data).children.getLast? = some (newRow data) ∧
    isElem "tr" (newRow data).info ∧ isElem "table" (addRow (.mk hT cs) data).info := by
  have hq := (findElement_none_iff "tbody" (.mk hT cs)).mp hno
  have hadd : addRow (.mk hT cs) data = .mk hT (cs ++ [newRow data]) := by
    unfold addRow
    rw [hq]
    rfl
  rw [hadd]
  refine ⟨rfl, by simp [Node.children], by simp [Node.children], by simp [Node.children],
    ?_, hTt⟩
  rw [newRow_eq]
  exact ⟨rfl, rfl⟩

/-- The preceding statement at a table whose only child is a row. -/
theorem addRow_without_tbody_witness :
    isElem "table" (el "table" []).info ∧
    countElem "tbody" (.mk (el "table" []).info [rowDV]) = 0 ∧
    (addRow (.mk (el "table" []).info [rowDV]) ["d", "v"]
      = .mk (el "table" []).info ([rowDV] ++ [newRow ["d", "v"]]) ∧
    (addRow (.mk (el "table" []).info [rowDV]) ["d", "v"]).children.take [rowDV].length
      = [rowDV] ∧
    (addRow (.mk (el "table" []).info [rowDV]) ["d", "v"]).children.length
      = [rowDV].length + 1 ∧
    (addRow (.mk (el "table" []).info [rowDV]) ["d", "v"]).children.getLast?
      = some (newRow ["d", "v"]) ∧
    isElem "tr" (newRow ["d", "v"]).info ∧
    isElem "table" (addRow (.mk (el "table" []).info [rowDV]) ["d", "v"]).info) :=
  ⟨⟨rfl, rfl⟩, by decide,
    addRow_without_tbody (el "table" []).info [rowDV] ["d", "v"] ⟨rfl, rfl⟩ (by decide)⟩

/-- C5. For every document tree that contains no element node tagged `table`
and every row, the traversal of `changeHtml` returns (fuel equal to the height
of the tree suffices), makes no `addRow` call, and leaves the tree as it was. -/
theorem changeHtml_without_table (data : List String) (n : Node) (fuel : Nat)
    (hno : countElem "table" n = 0) (hf : height n ≤ fuel) :
    f data fuel n = some (n, 0) := by
  have h := f_eq_bottomUp data fuel n (by unfold fuelBound; omega)
  rw [bottomUp_of_no_table data n hno, hno] at h
  exact h

/-- C5 (instance). The statement at a document without a table. -/
theorem changeHtml_without_table_witness :
    countElem "table" (docOf [el "p" [tx "no table here"]]) = 0 ∧
    height (docOf [el "p" [tx "no table here"]]) ≤ 3 ∧
    f ["d", "v"] 3 (docOf [el "p" [tx "no table here"]])
      = some (docOf [el "p" [tx "no table here"]], 0) :=
  ⟨by decide, by decide,
    changeHtml_without_table ["d", "v"] (docOf [el "p" [tx "no table here"]]) 3
      (by decide) (by decide)⟩

/-- C6. For every row, the `tr` element built by `addRow` (the node that
`addRow` appends at its insertion target) has exactly one child per value,
each an element `td` whose only child is a text node holding that value
verbatim, in the order of the row; the empty row gives a `tr` without
children, the empty string gives a `td` with one empty text node, and the row
`["12.05.2024", "1.1.3.abcdef"]` gives two `td` children with those texts. -/
theorem addRow_builds_row (data : List String) :
    (∃ kids, newRow data = .mk ⟨NodeType.ElementNode, 0, "tr", "", []⟩ kids ∧
      kids.length = data.length ∧
      ∀ (i : Nat) (s : String), data[i]? = some s →
        kids[i]? = some (Node.mk ⟨NodeType.ElementNode, 0, "td", "", []⟩
          [Node.mk ⟨NodeType.TextNode, 0, s, "", []⟩ []])) ∧
    (∀ n, ∃ h kids, nodeAt n (insertionTarget n) = some (.mk h kids) ∧
      nodeAt (addRow n data) (insertionTarget n) = some (.mk h (kids ++ [newRow data]))) ∧
    newRow [] = el "tr" [] ∧
    newRow [""] = el "tr" [el "td" [tx ""]] ∧
    newRow ["12.05.2024", "1.1.3.abcdef"]
      = el "tr" [el "td" [tx "12.05.2024"], el "td" [tx "1.1.3.abcdef"]] := by
  refine ⟨⟨data.map cellOf, newRow_eq data, by simp, ?_⟩, ?_, rfl, rfl, rfl⟩
  · intro i s hs
    simp [List.getElem?_map, hs, cellOf]
  · intro n
    have hv := insertionTarget_isSome n
    cases hn : nodeAt n (insertionTarget n) with
    | none => simp [hn] at hv
    | some t =>
      obtain ⟨h, kids⟩ := t
      refine ⟨h, kids, rfl, ?_⟩
      rw [addRow_eq]
      exact nodeAt_appendChildAt_self _ _ _ _ _ hn

/-- C7. For every node handed to `addRow` and every row, a second `addRow`
with the same row selects the same insertion target as the first, and after
the two calls the child list of that target is its original child list
followed by two new `tr` elements, both equal to the row built from the
values (so their cell texts are the row values); the second call does change
the tree. -/
theorem addRow_twice (n : Node) (data : List String) :
    insertionTarget (addRow n data) = insertionTarget n ∧
    ∃ h kids, nodeAt n (insertionTarget n) = some (.mk h kids) ∧
      nodeAt (addRow n data) (insertionTarget n) = some (.mk h (kids ++ [newRow data])) ∧
      nodeAt (addRow (addRow n data) data) (insertionTarget n)
        = some (.mk h (kids ++ [newRow data, newRow data])) ∧
      rowData (newRow data).children = data ∧
      addRow (addRow n data) data ≠ addRow n data := by
  have ht : insertionTarget (addRow n data) = insertionTarget n := by
    rw [addRow_eq, insertionTarget_appendChildAt]
  refine ⟨ht, ?_⟩
  have hv := insertionTarget_isSome n
  cases hn : nodeAt n (insertionTarget n) with
  | none => simp [hn] at hv
  | some t =>
    obtain ⟨h, kids⟩ := t
    have h1 : nodeAt (addRow n data) (insertionTarget n)
        = some (.mk h (kids ++ [newRow data])) := by
      rw [addRow_eq]
      exact nodeAt_appendChildAt_self _ _ _ _ _ hn
    have h2 : nodeAt (addRow (addRow n data) data) (insertionTarget n)
        = some (.mk h (kids ++ [newRow data, newRow data])) := by
      rw [addRow_eq (addRow n data), ht,
        nodeAt_appendChildAt_self _ _ _ _ _ h1]
      simp
    refine ⟨h, kids, rfl, h1, h2, rowData_newRow data, ?_⟩
    intro heq
    rw [heq, h1] at h2
    simp only [Option.some.injEq, Node.mk.injEq, true_and] at h2
    have := congrArg List.length h2
    simp at this

/-- C8. For every document tree and every row, the traversal of `changeHtml`
(with enough fuel) returns a tree that differs from the original only by
copies of the new `tr` appended as last children: every old node keeps its
fields and its old children in their old order, and cutting every child list
back to its old length gives exactly the original tree. -/
theorem changeHtml_frame (data : List String) (n : Node) (fuel : Nat)
    (hf : fuelBound n ≤ fuel) :
    ∃ r k, f data fuel n = some (r, k) ∧ Grown (newRow data) n r ∧ cutTo n r = n :=
  ⟨bottomUp data n, countElem "table" n, f_eq_bottomUp data fuel n hf,
    Grown_bottomUp data n, cutTo_of_Grown _ n _ (Grown_bottomUp data n)⟩

/-- C8 (instance). The statement at the document with two tables. -/
theorem changeHtml_frame_witness :
    fuelBound docTwoTables ≤ 9 ∧
    ∃ r k, f ["d", "v"] 9 docTwoTables = some (r, k) ∧
      Grown (newRow ["d", "v"]) docTwoTables r ∧ cutTo docTwoTables r = docTwoTables :=
  ⟨by decide, changeHtml_frame ["d", "v"] docTwoTables 9 (by decide)⟩

theorem map_bottomUp_of_no_table (data : List String) (cs : List Node)
    (h : countElemIn "table" cs = 0) : cs.map (bottomUp data) = cs := by
  conv_rhs => rw [← List.map_id cs]
  apply List.map_congr_left
  intro c hc
  have := countElem_le_countElemIn "table" cs c hc
  simpa using bottomUp_of_no_table data c (by omega)

theorem bottomUp_nested (data : List String) (hO hR hD hI hB : NodeInfo) (kids : List Node)
    (hOt : isElem "table" hO) (hIt : isElem "table" hI) (hBt : isElem "tbody" hB)
    (hR1 : ¬ isElem "table" hR) (hR2 : ¬ isElem "tbody" hR)
    (hD1 : ¬ isElem "table" hD) (hD2 : ¬ isElem "tbody" hD)
    (hk : countElemIn "table" kids = 0) :
    bottomUp data (.mk hO [.mk hR [.mk hD [.mk hI [.mk hB kids]]]])
      = .mk hO [.mk hR [.mk hD [.mk hI [.mk hB (kids ++ [newRow data, newRow data])]]]] ∧
    countElem "table" (.mk hO [.mk hR [.mk hD [.mk hI [.mk hB kids]]]]) = 2 := by
  obtain ⟨hOk, hOd⟩ := hOt
  obtain ⟨hIk, hId⟩ := hIt
  obtain ⟨hBk, hBd⟩ := hBt
  have hR1a : ¬ (hR.Kind = NodeType.ElementNode ∧ hR.Data = "table") := hR1
  have hR2a : ¬ (hR.Kind = NodeType.ElementNode ∧ hR.Data = "tbody") := hR2
  have hD1a : ¬ (hD.Kind = NodeType.ElementNode ∧ hD.Data = "table") := hD1
  have hD2a : ¬ (hD.Kind = NodeType.ElementNode ∧ hD.Data = "tbody") := hD2
  have hkm := map_bottomUp_of_no_table data kids hk
  constructor
  · simp [bottomUp, bottomUpIn, bottomUpIn_eq_map, hkm, addRow, findElement, findElementIn,
      appendChildAt, modifyAt, Node.AppendChild, Node.info, Node.children,
      hOk, hOd, hIk, hId, hBk, hBd, hR1a, hR2a, hD1a, hD2a]
  · simp [countElem, countElemIn, hk, hOk, hOd, hIk, hId, hBk, hBd, hR1a, hD1a]

/-- C9. For every finite document tree and every row the traversal `f` of
`changeHtml` terminates: there is one result that every amount of fuel from
`fuelBound` on produces. It makes one `addRow` call per `table` element of the
original tree and adds that many `tr` elements, and no `table` (the appended
row holds none). The rows need
not be spread one per table: a table without a `tbody` of its own that holds,
inside a cell, a nested table with a `tbody` sends its row to that `tbody`,
which ends up with two new rows while the outer table keeps its single direct
child. -/
theorem changeHtml_terminates (data : List String) (n : Node) :
    (∃ r, (∀ fuel, fuelBound n ≤ fuel → f data fuel n = some (r, countElem "table" n)) ∧
      countElem "tr" r = countElem "tr" n + countElem "table" n ∧
      countElem "table" r = countElem "table" n) ∧
    countElem "table" (newRow data) = 0 ∧
    (∀ (hO hR hD hI hB : NodeInfo) (kids : List Node) (fuel : Nat),
      isElem "table" hO → isElem "table" hI → isElem "tbody" hB →
      ¬ isElem "table" hR → ¬ isElem "tbody" hR →
      ¬ isElem "table" hD → ¬ isElem "tbody" hD →
      countElemIn "table" kids = 0 →
      fuelBound (.mk hO [.mk hR [.mk hD [.mk hI [.mk hB kids]]]]) ≤ fuel →
      f data fuel (.mk hO [.mk hR [.mk hD [.mk hI [.mk hB kids]]]])
        = some (.mk hO [.mk hR [.mk hD [.mk hI
            [.mk hB (kids ++ [newRow data, newRow data])]]]], 2)) := by
  refine ⟨⟨bottomUp data n, fun fuel hf => f_eq_bottomUp data fuel n hf,
    countElem_tr_bottomUp data n, countElem_table_bottomUp data n⟩,
    countElem_newRow_table data, ?_⟩
  intro hO hR hD hI hB kids fuel hOt hIt hBt hR1 hR2 hD1 hD2 hk hf
  obtain ⟨hb, hc⟩ := bottomUp_nested data hO hR hD hI hB kids hOt hIt hBt hR1 hR2 hD1 hD2 hk
  rw [f_eq_bottomUp data fuel _ hf, hb, hc]

/-- C9 (instance). The statement at the table with a nested table: fuel 11
suffices, and the nested `tbody` receives both rows. -/
theorem changeHtml_terminates_witness :
    fuelBound tblNested ≤ 11 ∧
    f ["d", "v"] 11 tblNested
      = some (el "table" [el "tr" [el "td" [el "table" [el "tbody" [rowDV, rowDV]]]]], 2) :=
  ⟨by decide,
    (changeHtml_terminates ["d", "v"] tblNested).2.2 (el "table" []).info (el "tr" []).info
      (el "td" []).info (el "table" []).info (el "tbody" []).info [] 11
      ⟨rfl, rfl⟩ ⟨rfl, rfl⟩ ⟨rfl, rfl⟩ (by decide) (by decide) (by decide) (by decide)
      rfl (by decide)⟩

theorem main_without_args (env : Env) (h : env.Args = []) :
    main env = Run.fatal "Не переданы параметры" := by
  simp [main, h]

theorem main_write_failed (env : Env) (prog version bookId id err : String)
    (rest : List String) (hargs : env.Args = prog :: version :: bookId :: id :: rest)
    (h1 : env.statIsNotExist version = true) (h2 : env.writeFileErr = some err) :
    main env = Run.fatal ("Ошибка записи в файл JSON: " ++ err) := by
  simp [main, hargs, checkFileExists, createVersionJsonFile, h1, h2]

/-- C10. In `main` (called with at least the three arguments it reads) the
version string is computed only when `checkFileExists` returns true, which is
exactly when `os.Stat` reports that no file with the name given by the version
argument exists; the outcome of `os.Stat` for any other name, `version.json`
included, does not matter. In that case `CalculatedVersion` becomes
`"1.1." + version + "." + SHA-1 hex of the current date` and is what is
written to `version.json`. In every run in which the file exists
`createVersionJsonFile` is skipped, `CalculatedVersion` keeps its initial
empty value, nothing is written, and the row handed to `addRow` by
`changeHtml` is the current date followed by the empty string. -/
theorem main_version_only_when_file_missing (env : Env) (prog version bookId id : String)
    (rest : List String) (hargs : env.Args = prog :: version :: bookId :: id :: rest) :
    (checkFileExists env version = true ↔ env.statIsNotExist version = true) ∧
    (createVersionJsonFile env version).1
      = "1.1." ++ version ++ "." ++ env.sha1Hex env.now ∧
    (env.statIsNotExist version = true → env.writeFileErr = none →
      main env = Run.reached ("1.1." ++ version ++ "." ++ env.sha1Hex env.now)
        (some ("version.json", "1.1." ++ version ++ "." ++ env.sha1Hex env.now))) ∧
    (env.statIsNotExist version = false →
      main env = Run.reached "" none ∧ changeHtmlRow env "" = [env.now, ""] ∧
      ∀ fuel doc, changeHtmlWalk env "" fuel doc = f [env.now, ""] fuel doc) ∧
    (∀ stat : String → Bool, stat version = env.statIsNotExist version →
      main { env with statIsNotExist := stat } = main env) := by
  refine ⟨?_, ?_, ?_, ?_, ?_⟩
  · unfold checkFileExists
    cases env.statIsNotExist version <;> simp
  · unfold createVersionJsonFile
    cases env.writeFileErr <;> rfl
  · intro h1 h2
    simp [main, hargs, checkFileExists, createVersionJsonFile, h1, h2,
      generateSha1FromCurrentDateAndTime, getCurrentLocalDateTime, VersionFileName]
  · intro h1
    refine ⟨?_, rfl, fun _ _ => rfl⟩
    simp [main, hargs, checkFileExists, h1]
  · intro stat hstat
    simp [main, hargs, checkFileExists, hstat, createVersionJsonFile,
      generateSha1FromCurrentDateAndTime, getCurrentLocalDateTime]

/-- C10 (instance). The statement at a run with arguments `7 3 139` in which a
file named `7` exists and no file `version.json` exists: the version is not
computed. -/
theorem main_version_only_when_file_missing_witness :
    envFileExists.Args = "setVersion" :: "7" :: "3" :: "139" :: [] ∧
    envFileExists.statIsNotExist "version.json" = true ∧
    envFileExists.statIsNotExist "7" = false ∧
    main envFileExists = Run.reached "" none ∧
    changeHtmlRow envFileExists "" = ["12.05.2024", ""] :=
  ⟨rfl, by decide, by decide,
    ((main_version_only_when_file_missing envFileExists "setVersion" "7" "3" "139" []
      rfl).2.2.2.1 (by decide)).1,
    ((main_version_only_when_file_missing envFileExists "setVersion" "7" "3" "139" []
      rfl).2.2.2.1 (by decide)).2.1⟩

end SetVersion
